import Mathlib

/-!
Verification of the jenerate incremental build engine.

This file gives a shallow embedding of the three components covered by the
specification: the dependency-tracking task runner (`src/task.mts`), the
content walker (`src/content/walk.mts`), and the document-reference resolver
(`src/content/DocumentReference.mts`), together with theorems settling the
frozen claims about them.

The task runner is modelled with an explicit state record.  JavaScript object
identity of `TaskContext` objects is modelled by indices into an append-only
arena (`RunnerState.contexts`).  JavaScript `Map` and `Set` (which preserve
insertion order) are modelled by association lists and duplicate-free lists.
Task callbacks are modelled by `TaskScript`, an inductive recording the only
interactions a callback can have with the runner: declaring a dependency
(`context.dependOn`), spawning and immediately running a sub-task
(`context.do`), finishing, or raising.
-/

/-- Model of `context.dependOn` / `context.do` / return / throw: the observable
behaviour of a task callback (`Task` in `src/task.mts`). -/
inductive TaskScript where
  | ret : TaskScript
  | throwErr : TaskScript
  | dependOn (path : String) (k : TaskScript) : TaskScript
  | doSub (sub : TaskScript) (inputs : List String) (k : TaskScript) : TaskScript
deriving DecidableEq, Repr

/-- One `TaskContext` object of `src/task.mts` (identity = arena index). -/
structure TaskContext where
  parent : Option Nat
  task : TaskScript
  inputs : List String
  dependencies : List String
  subTasks : List Nat
deriving DecidableEq, Repr

instance : Inhabited TaskContext :=
  ⟨⟨none, TaskScript.ret, [], [], []⟩⟩

/-- The `ChangeType` union of `src/task.mts`. -/
inductive ChangeType where
  | add | change | delete
deriving DecidableEq, Repr

/-- The private state of the `TaskRunner` class in `src/task.mts`.
`contexts` is the arena of all `TaskContext` objects ever created;
`nextId` models `randomUUID` by a fresh counter. -/
structure RunnerState where
  contexts : List TaskContext
  entryPoints : List (Nat × Nat)
  nextId : Nat
  contextByDependency : List (String × List Nat)
  invalidContexts : List Nat
  needsUpdateFlag : Bool
deriving DecidableEq, Repr

/-- A freshly constructed `TaskRunner` (`createTaskRunner`). -/
def RunnerState.init : RunnerState :=
  ⟨[], [], 0, [], [], false⟩

/-- Read a context from the arena (JS dereference of a `TaskContext`). -/
def RunnerState.ctx (st : RunnerState) (i : Nat) : TaskContext :=
  st.contexts.getD i default

/-- Overwrite a context in the arena (JS field mutation on the object). -/
def RunnerState.setCtx (st : RunnerState) (i : Nat) (c : TaskContext) : RunnerState :=
  { st with contexts := st.contexts.set i c }

/-- JS `Set.add` on an insertion-ordered set. -/
def setAddNat (l : List Nat) (x : Nat) : List Nat :=
  if x ∈ l then l else l ++ [x]

/-- JS `Set.add` on an insertion-ordered set of strings. -/
def setAddStr (l : List String) (x : String) : List String :=
  if x ∈ l then l else l ++ [x]

/-- Model of `new Set(array)`: deduplicate keeping first occurrences. -/
def dedupFirstNat (l : List Nat) : List Nat :=
  l.foldl setAddNat []

/-- Model of `new Set(array)` for strings: deduplicate keeping first occurrences. -/
def dedupFirstStr (l : List String) : List String :=
  l.foldl setAddStr []

/-- JS `Set.union`: the elements of the first set followed by the elements of
the second not already present. -/
def unionStr (a b : List String) : List String :=
  b.foldl setAddStr a

/-- JS `Map.get` on an insertion-ordered association list. -/
def lookupAssoc {α : Type} (l : List (String × α)) (k : String) : Option α :=
  match l with
  | [] => none
  | (k', v) :: rest => if k' = k then some v else lookupAssoc rest k

/-- JS `Map.set` on an existing key: replace the value, keeping position. -/
def setAssoc {α : Type} (l : List (String × α)) (k : String) (v : α) :
    List (String × α) :=
  match l with
  | [] => []
  | (k', v') :: rest =>
      if k' = k then (k', v) :: rest else (k', v') :: setAssoc rest k v

/-- JS `Map.delete`: remove the first entry with the given key. -/
def removeAssoc {α : Type} (l : List (String × α)) (k : String) :
    List (String × α) :=
  match l with
  | [] => []
  | (k', v') :: rest =>
      if k' = k then rest else (k', v') :: removeAssoc rest k

/-- Model of `removeFromArray` of `src/task.mts`: splice out the first occurrence. -/
def removeFromArray (l : List Nat) (x : Nat) : List Nat :=
  l.erase x

/-- Model of `removeFromArray` on the string-valued `inputs` array. -/
def removeFromArrayStr (l : List String) (x : String) : List String :=
  l.erase x

/-- The loop body of `TaskContext.isDescendantOf`, as written in the source:
it walks the parent chain but tests `other === this` (not the chain cursor).
The walk is bounded by `fuel`; in every reachable state a context's parent
has a smaller arena index, so `st.contexts.length` steps always suffice. -/
def TaskContext.isDescendantOfAux (st : RunnerState) (selfIdx other : Nat) :
    Nat → Option Nat → Bool
  | _, none => false
  | 0, some _ => false
  | fuel + 1, some curr =>
      if other = selfIdx then true
      else TaskContext.isDescendantOfAux st selfIdx other fuel (st.ctx curr).parent

/-- Model of `TaskContext.isDescendantOf` of `src/task.mts` (including its bug: the
comparison reads `other === this` instead of comparing against the cursor). -/
def TaskContext.isDescendantOf (st : RunnerState) (selfIdx other : Nat) : Bool :=
  TaskContext.isDescendantOfAux st selfIdx other st.contexts.length
    (st.ctx selfIdx).parent

/-- The inner `for (let i = 0; ...)` loop of `TaskRunner._invalidate` for one
candidate `c`.  Returns the (possibly element-replaced) invalid list, the
final `shouldAdd`, and the accumulated `shouldCompact`.  The loop index is
driven by structural fuel (`inv.length` steps from `i = 0`). -/
def TaskRunner.invalidateScan (st : RunnerState) (c : Nat) :
    Nat → List Nat → Nat → Bool → Bool → List Nat × Bool × Bool
  | 0, inv, _, shouldAdd, compact => (inv, shouldAdd, compact)
  | fuel + 1, inv, i, shouldAdd, compact =>
      match inv.get? i with
      | none => (inv, shouldAdd, compact)
      | some invalid =>
          if c = invalid ∨ TaskContext.isDescendantOf st c invalid then
            (inv, false, compact)
          else if TaskContext.isDescendantOf st invalid c then
            TaskRunner.invalidateScan st c fuel (inv.set i c) (i + 1) false true
          else
            TaskRunner.invalidateScan st c fuel inv (i + 1) shouldAdd compact

/-- The outer loop of `TaskRunner._invalidate` over the candidate contexts. -/
def TaskRunner.invalidateCore (st : RunnerState) :
    List Nat → List Nat → Bool → List Nat × Bool
  | [], inv, compact => (inv, compact)
  | c :: rest, inv, compact =>
      let r := TaskRunner.invalidateScan st c inv.length inv 0 true compact
      let inv' := if r.2.1 then r.1 ++ [c] else r.1
      TaskRunner.invalidateCore st rest inv' r.2.2

/-- Model of `TaskRunner._invalidate`. -/
def TaskRunner.invalidate (st : RunnerState) (cs : List Nat) : RunnerState :=
  let r := TaskRunner.invalidateCore st cs st.invalidContexts false
  { st with invalidContexts := if r.2 then dedupFirstNat r.1 else r.1 }

/-- Model of `TaskRunner._markValid`: recursively mark the sub-task tree valid, then
splice this context out of the invalid list.  The recursion is bounded by
`fuel`; sub-task indices are always larger than their parent's, so
`st.contexts.length` suffices in every reachable state. -/
def TaskRunner.markValidAux (st : RunnerState) : Nat → Nat → RunnerState
  | 0, _ => st
  | fuel + 1, i =>
      let st' := (st.ctx i).subTasks.foldl
        (fun s j => TaskRunner.markValidAux s fuel j) st
      { st' with invalidContexts := removeFromArray st'.invalidContexts i }

/-- Model of `TaskRunner._markValid` with its standard fuel. -/
def TaskRunner.markValid (st : RunnerState) (i : Nat) : RunnerState :=
  TaskRunner.markValidAux st st.contexts.length i

/-- Remove context `i` from the dependency-index entry of `path`
(the body of the second loop of `TaskRunner._prune`). -/
def TaskRunner.indexDelete (st : RunnerState) (path : String) (i : Nat) :
    RunnerState :=
  match lookupAssoc st.contextByDependency path with
  | none => st
  | some item =>
      if i ∈ item then
        let item' := removeFromArray item i
        if item'.length < 1 then
          { st with contextByDependency := removeAssoc st.contextByDependency path }
        else
          { st with contextByDependency := setAssoc st.contextByDependency path item' }
      else st

/-- Add context `i` to the dependency-index entry of `path`
(the body of the loop of `TaskRunner._gather`). -/
def TaskRunner.indexAdd (st : RunnerState) (path : String) (i : Nat) :
    RunnerState :=
  match lookupAssoc st.contextByDependency path with
  | none =>
      { st with contextByDependency := st.contextByDependency ++ [(path, [i])] }
  | some item =>
      { st with contextByDependency :=
          setAssoc st.contextByDependency path (setAddNat item i) }

/-- Model of `context.dependencies.union(new Set(context.inputs))`: the paths a context
currently declares. -/
def TaskContext.declaredPaths (c : TaskContext) : List String :=
  unionStr c.dependencies (dedupFirstStr c.inputs)

/-- Model of `TaskRunner._prune`: recursively prune sub-tasks, remove this context from
the dependency index, clear its sub-task list, then `_markValid` it. -/
def TaskRunner.pruneAux (st : RunnerState) : Nat → Nat → RunnerState
  | 0, _ => st
  | fuel + 1, i =>
      let st1 := (st.ctx i).subTasks.foldl
        (fun s j => TaskRunner.pruneAux s fuel j) st
      let st2 := (st1.ctx i).declaredPaths.foldl
        (fun s p => TaskRunner.indexDelete s p i) st1
      let st3 := st2.setCtx i { st2.ctx i with subTasks := [] }
      TaskRunner.markValid st3 i

/-- Model of `TaskRunner._prune` with its standard fuel. -/
def TaskRunner.prune (st : RunnerState) (i : Nat) : RunnerState :=
  TaskRunner.pruneAux st st.contexts.length i

/-- Model of `TaskRunner._gather`: index this context under all its declared paths,
then gather its sub-tasks. -/
def TaskRunner.gatherAux (st : RunnerState) : Nat → Nat → RunnerState
  | 0, _ => st
  | fuel + 1, i =>
      let st1 := (st.ctx i).declaredPaths.foldl
        (fun s p => TaskRunner.indexAdd s p i) st
      (st1.ctx i).subTasks.foldl (fun s j => TaskRunner.gatherAux s fuel j) st1

/-- Model of `TaskRunner._gather` with its standard fuel. -/
def TaskRunner.gather (st : RunnerState) (i : Nat) : RunnerState :=
  TaskRunner.gatherAux st st.contexts.length i

/-- Execute a task callback against context `i`: interpret its script.
On success returns the new state and the log of callback invocations made by
`context.do` (context index and the inputs it was invoked with); on a raise
returns the state at the moment of the throw. -/
def runScript (st : RunnerState) (i : Nat) :
    TaskScript → Except RunnerState (RunnerState × List (Nat × List String))
  | .ret => .ok (st, [])
  | .throwErr => .error st
  | .dependOn p k =>
      let c := st.ctx i
      runScript (st.setCtx i { c with dependencies := setAddStr c.dependencies p }) i k
  | .doSub sub inputs k =>
      let childIdx := st.contexts.length
      let st1 := { st with contexts :=
        st.contexts ++ [(⟨some i, sub, inputs, [], []⟩ : TaskContext)] }
      let c := st1.ctx i
      let st2 := st1.setCtx i { c with subTasks := c.subTasks ++ [childIdx] }
      match runScript st2 childIdx sub with
      | .error e => .error e
      | .ok (st3, log1) =>
          match runScript st3 i k with
          | .error e => .error e
          | .ok (st4, log2) => .ok (st4, (childIdx, inputs) :: log1 ++ log2)

/-- Whether a script reaches `throw` when run (independent of the state). -/
def TaskScript.fails : TaskScript → Bool
  | .ret => false
  | .throwErr => true
  | .dependOn _ k => k.fails
  | .doSub sub _ k => sub.fails || k.fails

/-- The `for (const context of [...this._invalidContexts])` loop of
`TaskRunner.update`.  The log records every task-callback invocation with the
inputs it received. -/
def TaskRunner.updateLoop (st : RunnerState) :
    List Nat → Except RunnerState (RunnerState × List (Nat × List String))
  | [] => .ok (st, [])
  | c :: rest =>
      let tk := (st.ctx c).task
      let ins := (st.ctx c).inputs
      let st1 := TaskRunner.prune st c
      match runScript st1 c tk with
      | .error e => .error e
      | .ok (st2, log1) =>
          let st3 := TaskRunner.gather st2 c
          let st4 := TaskRunner.markValid st3 c
          match TaskRunner.updateLoop st4 rest with
          | .error e => .error e
          | .ok (st5, log2) => .ok (st5, (c, ins) :: log1 ++ log2)

/-- Model of `TaskRunner.update`. -/
def TaskRunner.update (st : RunnerState) :
    Except RunnerState (RunnerState × List (Nat × List String)) :=
  let st0 := { st with needsUpdateFlag := false }
  TaskRunner.updateLoop st0 st0.invalidContexts

/-- Model of `TaskRunner.needsUpdate`. -/
def TaskRunner.needsUpdate (st : RunnerState) : Bool :=
  st.needsUpdateFlag || decide (0 < st.invalidContexts.length)

/-- Model of `TaskRunner.add`. -/
def TaskRunner.add (st : RunnerState) (task : TaskScript)
    (inputs : List String) : Nat × RunnerState :=
  let ctxIdx := st.contexts.length
  let id := st.nextId
  let st1 := { st with
    contexts := st.contexts ++ [(⟨none, task, inputs, [], []⟩ : TaskContext)],
    entryPoints := st.entryPoints ++ [(id, ctxIdx)],
    nextId := id + 1 }
  (id, TaskRunner.invalidate st1 [ctxIdx])

/-- Model of `TaskRunner.getInputs`. -/
def TaskRunner.getInputs (st : RunnerState) (id : Nat) : Option (List String) :=
  match st.entryPoints.lookup id with
  | none => none
  | some i => some (st.ctx i).inputs

/-- Model of `TaskRunner.setInputs`. -/
def TaskRunner.setInputs (st : RunnerState) (id : Nat)
    (inputs : List String) : RunnerState :=
  match st.entryPoints.lookup id with
  | none => st
  | some i =>
      TaskRunner.invalidate (st.setCtx i { st.ctx i with inputs := inputs }) [i]

/-- Model of `TaskRunner.remove`. -/
def TaskRunner.remove (st : RunnerState) (id : Nat) : RunnerState :=
  match st.entryPoints.lookup id with
  | none => st
  | some i =>
      let st1 := TaskRunner.prune st i
      { st1 with
        entryPoints := st1.entryPoints.filter (fun e => e.1 ≠ id),
        needsUpdateFlag := true }

/-- Model of `TaskRunner.invalidatePath`. -/
def TaskRunner.invalidatePath (st : RunnerState) (path : String)
    (type : ChangeType) : RunnerState :=
  match lookupAssoc st.contextByDependency path with
  | none => st
  | some ctxs =>
      let st1 :=
        if type = ChangeType.delete then
          ctxs.foldl
            (fun s i =>
              s.setCtx i { s.ctx i with
                inputs := removeFromArrayStr (s.ctx i).inputs path })
            st
        else st
      TaskRunner.invalidate st1 ctxs

/-!
## Content walker (`src/content/walk.mts`, the `rootUrl`/`followRemoteReferences` variant)

References are modelled by `DocRef`: a target URL string plus the referrer
chain built by resolution.  Each `resolve` in the source constructs a fresh
`DocumentReference` object, so a reference is never (by object identity) a
member of its own referrer chain; in the model the chain is part of the term
structure, so the same holds by subterm inequality.  The content-fetch
contract (spec section 6) is the parameter `WalkGraph`: the list of typed
outgoing references of each target.  Fetching is modelled as always
succeeding; the walk additionally logs which targets were fetched.
-/

/-- Model of `CycleOptions` of `src/content/walk.mts`. -/
inductive CycleOptions where
  | allow | prune | fail
deriving DecidableEq, Repr

/-- A `DocumentReference` as seen by the walker: its absolute URL (href) and
its referrer chain. -/
inductive DocRef where
  | root (url : String) : DocRef
  | child (url : String) (referrer : DocRef) : DocRef
deriving DecidableEq, Repr

/-- The `url.href` of a reference. -/
def DocRef.url : DocRef → String
  | .root u => u
  | .child u _ => u

/-- The `referrer` property of a reference. -/
def DocRef.referrer : DocRef → Option DocRef
  | .root _ => none
  | .child _ r => some r

/-- The walk options used by the claims
(`IContentWalkerOptions` of `src/content/walk.mts`). -/
structure WalkOptions where
  followRemoteReferences : Bool
  cycles : CycleOptions
deriving DecidableEq, Repr

/-- The content-fetch contract: for each target, the typed references its
content declares (`referencesGetter` composed with the in-document reference
extraction, which resolves each raw value against the content's reference). -/
structure WalkGraph where
  refsOf : String → List (String × String)

/-- An entry yielded by the walk: fetched content for html/svg targets,
an unknown-type leaf otherwise (`Content` in `src/content/walk.mts`). -/
inductive WalkContent where
  | typed (type : String) (url : String) : WalkContent
  | unknown (mimeType : String) (url : String) : WalkContent
deriving DecidableEq, Repr

/-- Abnormal ends of a modelled walk: the `Fail`-policy error (carrying the
built `importChain`) or fuel exhaustion (the source may genuinely diverge). -/
inductive WalkErr where
  | cycleError (chain : List String) : WalkErr
  | outOfFuel : WalkErr
deriving DecidableEq, Repr

/-- The outcome of the cycle-detection loop at the top of `walkReference`. -/
inductive CycleScanOutcome where
  | proceed : CycleScanOutcome
  | pruned : CycleScanOutcome
  | failed (chain : List String) : CycleScanOutcome
deriving DecidableEq, Repr

/-- The cycle-detection loop of `walkReference`: walk the referrer chain of
`tgt`, accumulating `importChain`, and compare each ancestor against `tgt`
(the source compares with `===`; equality of `DocRef` terms is the model of
object identity). -/
def cycleScanFrom (cycles : CycleOptions) (tgt : DocRef) :
    DocRef → List String → CycleScanOutcome
  | DocRef.root u, chain =>
      let chain' := chain ++ [u]
      if DocRef.root u = tgt then
        match cycles with
        | .allow => .proceed
        | .prune => .pruned
        | .fail => .failed chain'
      else .proceed
  | DocRef.child u rr, chain =>
      let chain' := chain ++ [u]
      if DocRef.child u rr = tgt then
        match cycles with
        | .allow => cycleScanFrom cycles tgt rr chain'
        | .prune => .pruned
        | .fail => .failed chain'
      else cycleScanFrom cycles tgt rr chain'

/-- The whole cycle-detection loop: start from `tgt.referrer`
(an absent referrer means the loop body never runs). -/
def cycleScan (cycles : CycleOptions) (tgt : DocRef) : CycleScanOutcome :=
  match tgt with
  | DocRef.root _ => .proceed
  | DocRef.child _ r => cycleScanFrom cycles tgt r []

/-- Model of `url.protocol`: the scheme of an href up to and including the colon. -/
def urlProtocol (s : String) : String :=
  String.mk (s.data.takeWhile (fun c => c ≠ ':')) ++ ":"

/-- The MIME types dispatched to `getAndWalkContent` by `walkReference`. -/
def isWalkedType (type : String) : Bool :=
  type = "text/html" ∨ type = "application/xhtml+xml" ∨ type = "image/svg+xml"

/-- The `for await` loop at the bottom of `getAndWalkContent`: walk each
discovered reference in order, stopping at the first abnormal end.  Each
discovered reference is a fresh object whose referrer is `tgt`. -/
def walkList (walkOne : String → DocRef → List WalkContent × List String × Option WalkErr)
    (tgt : DocRef) :
    List (String × String) → List WalkContent × List String × Option WalkErr
  | [] => ([], [], none)
  | (t, target) :: rest =>
      let r := walkOne t (DocRef.child target tgt)
      match r.2.2 with
      | some e => (r.1, r.2.1, some e)
      | none =>
          let r' := walkList walkOne tgt rest
          (r.1 ++ r'.1, r.2.1 ++ r'.2.1, r'.2.2)

/-- Model of `walkReference` / `getAndWalkContent` of `src/content/walk.mts`, fuelled.
Returns the contents yielded (in order), the targets fetched, and the abnormal
end if any.  The remote gating and unknown-type branches follow the source:
gating applies inside `getAndWalkContent` only, the unknown branch yields a
leaf without fetching. -/
def walkRef (g : WalkGraph) (opts : WalkOptions) :
    Nat → String → DocRef → List WalkContent × List String × Option WalkErr
  | 0, _, _ => ([], [], some WalkErr.outOfFuel)
  | fuel + 1, type, tgt =>
      match cycleScan opts.cycles tgt with
      | .pruned => ([], [], none)
      | .failed chain => ([], [], some (WalkErr.cycleError chain))
      | .proceed =>
          if isWalkedType type then
            if !opts.followRemoteReferences ∧ urlProtocol tgt.url ≠ "file:" then
              ([], [], none)
            else
              let r := walkList (walkRef g opts fuel) tgt (g.refsOf tgt.url)
              (WalkContent.typed type tgt.url :: r.1, tgt.url :: r.2.1, r.2.2)
          else
            ([WalkContent.unknown type tgt.url], [], none)

/-!
## Reference resolver (`src/content/DocumentReference.mts`, `rootURL` variant)

`Url` models a WHATWG `URL` as used by the resolver: scheme, authority
(host, port and userinfo folded into one opaque string), the path as the
list of segments obtained by splitting `pathname` after its leading slash
(so `pathname "/"` is `[""]` and a trailing slash is a trailing `""`
segment), and the `search`/`hash` strings including their `?`/`#` prefixes.
`urlResolve` is `new URL(ref, base)` for references without a scheme or
authority of their own, including the WHATWG treatment of backslashes as
slashes in special schemes (both `file:` and `https:` are special) and the
clamping of `..` at the path root by `removeDotSegments`.
-/

/-- A WHATWG `URL` value as used by the resolver. -/
structure Url where
  scheme : String
  authority : String
  path : List String
  search : String
  fragment : String
deriving DecidableEq, Repr

/-- Join path segments with `/` separators (character-level model of
`String.intercalate "/"`). -/
def joinSegsChars : List String → List Char
  | [] => []
  | [s] => s.data
  | s :: rest => s.data ++ '/' :: joinSegsChars rest

/-- Split a character list at every occurrence of `c`
(character-level model of `String.splitOn` for a one-character separator). -/
def splitOnChar (c : Char) : List Char → List (List Char)
  | [] => [[]]
  | x :: xs =>
      if x = c then [] :: splitOnChar c xs
      else
        match splitOnChar c xs with
        | [] => [[x]]
        | g :: gs => (x :: g) :: gs

/-- Split a string on `/`. -/
def splitSlash (s : String) : List String :=
  (splitOnChar '/' s.data).map String.mk

/-- Model of `url.pathname`. -/
def Url.pathname (u : Url) : String :=
  String.mk ('/' :: joinSegsChars u.path)

/-- The scheme part of a candidate URL string after its first character:
scheme characters followed by a colon. -/
def schemeTailOk : List Char → Bool
  | [] => false
  | c :: rest =>
      if c = ':' then true
      else if c.isAlpha ∨ c.isDigit ∨ c = '+' ∨ c = '-' ∨ c = '.' then
        schemeTailOk rest
      else false

/-- Model of `URL.canParse(s)` (without a base): `s` carries its own scheme. -/
def hasUrlScheme (s : String) : Bool :=
  match s.data with
  | [] => false
  | c :: rest => c.isAlpha && schemeTailOk rest

/-- WHATWG parsing of special-scheme URLs treats `\` like `/`. -/
def normalizeSlashes (s : String) : String :=
  String.mk (s.data.map fun c => if c = '\\' then '/' else c)

/-- Split a string at the first occurrence of `c`. -/
def splitFirstAux (c : Char) : List Char → List Char → List Char × Option (List Char)
  | acc, [] => (acc.reverse, none)
  | acc, x :: xs =>
      if x = c then (acc.reverse, some xs) else splitFirstAux c (x :: acc) xs

/-- Split a string at the first occurrence of `c`. -/
def splitFirst (s : String) (c : Char) : String × Option String :=
  let r := splitFirstAux c [] s.data
  (String.mk r.1, r.2.map String.mk)

/-- Model of `remove_dot_segments` on path segments: `.` is dropped, `..` pops the
last output segment (clamping at the root), and a final `.` or `..` leaves a
trailing empty segment (a trailing slash). -/
def removeDotSegs (out : List String) : List String → List String
  | [] => out
  | [s] =>
      if s = "." then out ++ [""]
      else if s = ".." then out.dropLast ++ [""]
      else out ++ [s]
  | s :: rest =>
      if s = "." then removeDotSegs out rest
      else if s = ".." then removeDotSegs out.dropLast rest
      else removeDotSegs (out ++ [s]) rest

/-- A reference whose first two (already slash-normalized) characters are
separators is protocol-relative: WHATWG parsing reads an authority after the
slashes instead of a path. -/
def isProtocolRelative (l : List Char) : Bool :=
  match l with
  | c1 :: c2 :: _ => c1 == '/' && c2 == '/'
  | _ => false

/-- Plain path characters: ASCII letters, digits, and the unreserved marks.
WHATWG URL parsing copies them into a path verbatim (no percent-encoding, no
delimiter role), so segment values built from them stay inside the modelled
scope of urlResolve. -/
def isPlainPathChar (c : Char) : Bool :=
  c.isAlpha || c.isDigit || c == '-' || c == '_' || c == '.' || c == '~'

/-- Model of `new URL(ref, base)` for a reference without a scheme of its
own: split off fragment and query; a protocol-relative reference (leading
`//`) keeps the base scheme but replaces the authority (WHATWG skips all
leading separators, reads the authority up to the next `/`, and parses the
remainder as an absolute path); otherwise resolve the path against the base
(absolute paths replace it, relative paths merge with the base directory)
and collapse dot segments.  Percent-encoding of non-URL code points and
host-validation failures of the `URL` constructor are outside the modelled
scope; the theorems below quantify only over plain path characters, which
never reach either. -/
def urlResolve (ref : String) (base : Url) : Url :=
  let s := normalizeSlashes ref
  let fragSplit := splitFirst s '#'
  let frag := match fragSplit.2 with
    | none => ""
    | some f => "#" ++ f
  let querySplit := splitFirst fragSplit.1 '?'
  let query := querySplit.2
  let pathPart := querySplit.1
  if pathPart = "" then
    match query with
    | some q => { base with search := "?" ++ q, fragment := frag }
    | none =>
        match fragSplit.2 with
        | some _ => { base with fragment := frag }
        | none => base
  else if isProtocolRelative pathPart.data then
    let afterSlashes := pathPart.data.dropWhile (fun c => c = '/')
    let authSplit := splitFirst (String.mk afterSlashes) '/'
    { scheme := base.scheme,
      authority := authSplit.1,
      path := match authSplit.2 with
        | none => [""]
        | some p => removeDotSegs [] (splitSlash p),
      search := match query with
        | some q => "?" ++ q
        | none => "",
      fragment := frag }
  else
    let segs :=
      if pathPart.data.head? = some '/' then splitSlash (String.mk pathPart.data.tail)
      else base.path.dropLast ++ splitSlash pathPart
    { base with
      path := removeDotSegs [] segs,
      search := match query with
        | some q => "?" ++ q
        | none => "",
      fragment := frag }

/-- Minimal parse of a fully-qualified URL string (the `URL.canParse` branch
of `resolve`; the claims never take it). -/
def parseUrl (s : String) : Url :=
  let schemeSplit := splitFirst s ':'
  let scheme := schemeSplit.1
  let rest := (schemeSplit.2.getD "")
  if rest.startsWith "//" then
    let afterSlashes := rest.drop 2
    let authSplit := splitFirst afterSlashes '/'
    match authSplit.2 with
    | none => ⟨scheme, authSplit.1, [""], "", ""⟩
    | some p => urlResolve ("/" ++ p) ⟨scheme, authSplit.1, [""], "", ""⟩
  else
    urlResolve rest ⟨scheme, "", [""], "", ""⟩

/-- The number of leading segments two paths share. -/
def commonPrefixLen : List String → List String → Nat
  | a :: as, b :: bs => if a = b then commonPrefixLen as bs + 1 else 0
  | _, _ => 0

/-- Model of `node:path/posix` `relative` on two absolute, already-normalized
pathnames, as used by `resolve` between the root pathname and the current
pathname. -/
def posixRelative (fromPath toPath : String) : String :=
  let f := (splitSlash fromPath).filter (fun x => x ≠ "")
  let t := (splitSlash toPath).filter (fun x => x ≠ "")
  let c := commonPrefixLen f t
  String.mk (joinSegsChars (List.replicate (f.length - c) ".." ++ t.drop c))

/-- Model of `getUrlParts(url, UrlParts.Authority)` of `src/url.mts` as the string
`scheme://authority` (userinfo and port folded into `authority`). -/
def urlAuthorityString (u : Url) : String :=
  u.scheme ++ "://" ++ u.authority

/-- Model of `hasSameUrlParts(a, b, UrlParts.Authority)`. -/
def hasSameAuthority (a b : Url) : Bool :=
  urlAuthorityString a = urlAuthorityString b

/-- The synthetic placeholder authority of `resolve`
(`"https://www.example.com"`). -/
def placeholderUrl : Url :=
  ⟨"https", "www.example.com", [""], "", ""⟩

/-- A `DocumentReference` of the `rootURL` variant: its URL, its referrer
chain, and the configured root context. -/
inductive DRef where
  | orphan (url : Url) (rootCtx : Option Url) : DRef
  | derived (url : Url) (referrer : DRef) (rootCtx : Option Url) : DRef
deriving DecidableEq, Repr

/-- The `url` property of a reference. -/
def DRef.url : DRef → Url
  | .orphan u _ => u
  | .derived u _ _ => u

/-- The `_context.rootURL` of a reference. -/
def DRef.rootCtx : DRef → Option Url
  | .orphan _ r => r
  | .derived _ _ r => r

/-- Model of `createDocumentReference(url, rootUrl)`. -/
def createDocumentReference (u : Url) (rootUrl : Option Url) : DRef :=
  DRef.orphan u rootUrl

/-- Model of `DocumentReference.resolve` of the `rootURL` variant: fully-qualified
values are parsed as-is; otherwise, when a root context with the same
authority as the current URL is configured, the value is resolved against a
placeholder-authority virtual URL positioned at the current reference's
root-relative location, and the resulting path is re-rooted under the root
context; otherwise the value is resolved against the current URL. -/
def DRef.resolve (r : DRef) (value : String) : DRef :=
  if hasUrlScheme value then DRef.derived (parseUrl value) r r.rootCtx
  else
    match r.rootCtx with
    | some root =>
        if hasSameAuthority root r.url then
          let virtualUrl :=
            urlResolve (posixRelative root.pathname r.url.pathname) placeholderUrl
          let rv := urlResolve value virtualUrl
          let resolved :=
            urlResolve ("." ++ rv.pathname ++ rv.search ++ rv.fragment) root
          DRef.derived resolved r r.rootCtx
        else DRef.derived (urlResolve value r.url) r r.rootCtx
    | none => DRef.derived (urlResolve value r.url) r r.rootCtx

/-!
## The intended ancestor relation

`TaskContext.isDescendantOf` is meant to decide whether `other` lies on the
walked parent chain; the relation below is that chain-membership relation,
used to state the dominance claims. -/

/-- Modelled from the spec: "an ancestor's re-execution supersedes any
descendant invalidation" — `d` is a descendant of `a` when `a` lies on `d`'s
parent chain (walk bounded by fuel, `st.contexts.length` sufficing in
reachable states). -/
def isDescendantIntendedAux (st : RunnerState) (a : Nat) :
    Nat → Option Nat → Bool
  | _, none => false
  | 0, some _ => false
  | fuel + 1, some curr =>
      if curr = a then true
      else isDescendantIntendedAux st a fuel (st.ctx curr).parent

/-- Modelled from the spec: the real "is a descendant of" relation. -/
def isDescendantIntended (st : RunnerState) (d a : Nat) : Bool :=
  isDescendantIntendedAux st a st.contexts.length (st.ctx d).parent

/-!
## General preservation lemmas
-/

/-- Folding a step that preserves a reflexive transitive relation preserves
it. -/
theorem foldl_preserve {α β : Type} {R : α → α → Prop}
    (href : ∀ a, R a a)
    (htr : ∀ a b c, R a b → R b c → R a c)
    {f : α → β → α} (hf : ∀ a b, R (f a b) a) :
    ∀ (l : List β) (a : α), R (List.foldl f a l) a
  | [], a => href a
  | b :: l, a => htr _ _ _ (foldl_preserve href htr hf l (f a b)) (hf a b)

/-- The preservation relation of `_markValid`: every field except the invalid
list unchanged, and the invalid list only loses elements. -/
def MVRel (a b : RunnerState) : Prop :=
  a.contexts = b.contexts ∧ a.entryPoints = b.entryPoints ∧
  a.nextId = b.nextId ∧ a.contextByDependency = b.contextByDependency ∧
  a.needsUpdateFlag = b.needsUpdateFlag ∧
  List.Sublist a.invalidContexts b.invalidContexts

theorem mvRelRefl (a : RunnerState) : MVRel a a :=
  ⟨rfl, rfl, rfl, rfl, rfl, List.Sublist.refl _⟩

theorem mvRelTrans {a b c : RunnerState} (h1 : MVRel a b) (h2 : MVRel b c) :
    MVRel a c := by
  obtain ⟨e1, e2, e3, e4, e5, s1⟩ := h1
  obtain ⟨f1, f2, f3, f4, f5, t1⟩ := h2
  exact ⟨e1.trans f1, e2.trans f2, e3.trans f3, e4.trans f4, e5.trans f5,
    s1.trans t1⟩

/-- Proof that `_markValid` only removes entries from the invalid list. -/
theorem markValidAux_mv : ∀ (fuel : Nat) (st : RunnerState) (i : Nat),
    MVRel (TaskRunner.markValidAux st fuel i) st := by
  intro fuel
  induction fuel with
  | zero => intro st i; exact mvRelRefl st
  | succ n ih =>
      intro st i
      have hfold : MVRel
          (List.foldl (fun s j => TaskRunner.markValidAux s n j) st
            (st.ctx i).subTasks) st :=
        foldl_preserve mvRelRefl (fun _ _ _ h1 h2 => mvRelTrans h1 h2)
          (fun a b => ih a b) _ st
      obtain ⟨e1, e2, e3, e4, e5, s1⟩ := hfold
      refine ⟨e1, e2, e3, e4, e5, ?_⟩
      simp only [TaskRunner.markValidAux, removeFromArray]
      exact (List.erase_sublist _ _).trans s1

/-- With positive fuel, `_markValid i` ends by erasing `i` from a shrunk
invalid list. -/
theorem markValidAux_erase (fuel : Nat) (st : RunnerState) (i : Nat)
    (h : 0 < fuel) :
    ∃ u, List.Sublist u st.invalidContexts ∧
      (TaskRunner.markValidAux st fuel i).invalidContexts =
        removeFromArray u i := by
  cases fuel with
  | zero => exact absurd h (Nat.lt_irrefl 0)
  | succ n =>
      refine ⟨(List.foldl (fun s j => TaskRunner.markValidAux s n j) st
        (st.ctx i).subTasks).invalidContexts, ?_, rfl⟩
      exact (foldl_preserve mvRelRefl (fun _ _ _ h1 h2 => mvRelTrans h1 h2)
        (fun a b => markValidAux_mv n a b) _ st).2.2.2.2.2

/-- Proof that `indexDelete` only rewrites the dependency index. -/
theorem indexDelete_spec (st : RunnerState) (p : String) (i : Nat) :
    (TaskRunner.indexDelete st p i).contexts = st.contexts ∧
    (TaskRunner.indexDelete st p i).entryPoints = st.entryPoints ∧
    (TaskRunner.indexDelete st p i).nextId = st.nextId ∧
    (TaskRunner.indexDelete st p i).needsUpdateFlag = st.needsUpdateFlag ∧
    (TaskRunner.indexDelete st p i).invalidContexts = st.invalidContexts := by
  unfold TaskRunner.indexDelete
  rcases lookupAssoc st.contextByDependency p with _ | item
  · exact ⟨rfl, rfl, rfl, rfl, rfl⟩
  · simp only []
    split
    · split
      · exact ⟨rfl, rfl, rfl, rfl, rfl⟩
      · exact ⟨rfl, rfl, rfl, rfl, rfl⟩
    · exact ⟨rfl, rfl, rfl, rfl, rfl⟩

/-- The preservation relation of `_prune`: entry points, id counter, flag and
arena size unchanged; the invalid list only loses elements. -/
def PRRel (a b : RunnerState) : Prop :=
  a.contexts.length = b.contexts.length ∧ a.entryPoints = b.entryPoints ∧
  a.nextId = b.nextId ∧ a.needsUpdateFlag = b.needsUpdateFlag ∧
  List.Sublist a.invalidContexts b.invalidContexts

theorem prRelRefl (a : RunnerState) : PRRel a a :=
  ⟨rfl, rfl, rfl, rfl, List.Sublist.refl _⟩

theorem prRelTrans {a b c : RunnerState} (h1 : PRRel a b) (h2 : PRRel b c) :
    PRRel a c := by
  obtain ⟨e1, e2, e3, e4, s1⟩ := h1
  obtain ⟨f1, f2, f3, f4, t1⟩ := h2
  exact ⟨e1.trans f1, e2.trans f2, e3.trans f3, e4.trans f4, s1.trans t1⟩

theorem MVRel.toPRRel {a b : RunnerState} (h : MVRel a b) : PRRel a b := by
  obtain ⟨e1, e2, e3, e4, e5, s1⟩ := h
  exact ⟨congrArg List.length e1, e2, e3, e5, s1⟩

theorem indexDelete_pr (s : RunnerState) (p : String) (i : Nat) :
    PRRel (TaskRunner.indexDelete s p i) s := by
  obtain ⟨e1, e2, e3, e4, e5⟩ := indexDelete_spec s p i
  exact ⟨congrArg List.length e1, e2, e3, e4, e5 ▸ List.Sublist.refl _⟩

theorem setCtx_pr (s : RunnerState) (j : Nat) (c : TaskContext) :
    PRRel (s.setCtx j c) s :=
  ⟨List.length_set s.contexts j c, rfl, rfl, rfl, List.Sublist.refl _⟩

/-- Proof that `_prune` preserves entry points, the id counter, the flag and the arena
size, and only removes entries from the invalid list. -/
theorem pruneAux_pr : ∀ (fuel : Nat) (st : RunnerState) (i : Nat),
    PRRel (TaskRunner.pruneAux st fuel i) st := by
  intro fuel
  induction fuel with
  | zero => intro st i; exact prRelRefl st
  | succ n ih =>
      intro st i
      have h1 : PRRel
          (List.foldl (fun s j => TaskRunner.pruneAux s n j) st
            (st.ctx i).subTasks) st :=
        foldl_preserve prRelRefl (fun _ _ _ a b => prRelTrans a b)
          (fun a b => ih a b) _ st
      have h3 : ∀ (paths : List String) (s : RunnerState),
          PRRel (List.foldl (fun s' p => TaskRunner.indexDelete s' p i) s paths) s :=
        fun paths s =>
          foldl_preserve prRelRefl (fun _ _ _ a b => prRelTrans a b)
            (fun a b => indexDelete_pr a b i) paths s
      simp only [TaskRunner.pruneAux]
      exact prRelTrans (prRelTrans (prRelTrans
        ((markValidAux_mv _ _ i).toPRRel) (setCtx_pr _ _ _))
        (h3 _ _)) h1

/-- With positive fuel and a non-empty arena, `_prune i` ends by erasing `i`
from a shrunk invalid list. -/
theorem pruneAux_erase (fuel : Nat) (st : RunnerState) (i : Nat)
    (hf : 0 < fuel) (hl : 0 < st.contexts.length) :
    ∃ u, List.Sublist u st.invalidContexts ∧
      (TaskRunner.pruneAux st fuel i).invalidContexts = removeFromArray u i := by
  cases fuel with
  | zero => exact absurd hf (Nat.lt_irrefl 0)
  | succ n =>
      simp only [TaskRunner.pruneAux, TaskRunner.markValid]
      set st1 := List.foldl (fun s j => TaskRunner.pruneAux s n j) st
        (st.ctx i).subTasks with hst1
      set st2 := List.foldl (fun s p => TaskRunner.indexDelete s p i)
        st1 (st1.ctx i).declaredPaths with hst2
      set st3 := st2.setCtx i { st2.ctx i with subTasks := [] } with hst3
      have hpr1 : PRRel st1 st :=
        foldl_preserve prRelRefl (fun _ _ _ a b => prRelTrans a b)
          (fun a b => pruneAux_pr n a b) _ st
      have hpr2 : PRRel st2 st1 :=
        foldl_preserve prRelRefl (fun _ _ _ a b => prRelTrans a b)
          (fun a b => indexDelete_pr a b i) _ st1
      have hpr3 : PRRel st3 st2 := setCtx_pr st2 i _
      have hlen3 : st3.contexts.length = st.contexts.length :=
        (hpr3.1.trans hpr2.1).trans hpr1.1
      have hpos : 0 < st3.contexts.length := hlen3 ▸ hl
      obtain ⟨u, hu, heq⟩ := markValidAux_erase st3.contexts.length st3 i hpos
      exact ⟨u, (hu.trans hpr3.2.2.2.2).trans (hpr2.2.2.2.2.trans hpr1.2.2.2.2),
        heq⟩

/-- Proof that `runScript` never touches the invalid list, the flag, the dependency
index or the entry points, and the arena only grows — both on success and on
a raise. -/
theorem runScript_spec (s : TaskScript) : ∀ (st : RunnerState) (i : Nat),
    (∀ e, runScript st i s = Except.error e →
      e.invalidContexts = st.invalidContexts ∧
      e.needsUpdateFlag = st.needsUpdateFlag ∧
      e.contextByDependency = st.contextByDependency ∧
      e.entryPoints = st.entryPoints ∧
      st.contexts.length ≤ e.contexts.length) ∧
    (∀ st' log, runScript st i s = Except.ok (st', log) →
      st'.invalidContexts = st.invalidContexts ∧
      st'.needsUpdateFlag = st.needsUpdateFlag ∧
      st'.contextByDependency = st.contextByDependency ∧
      st'.entryPoints = st.entryPoints ∧
      st.contexts.length ≤ st'.contexts.length) := by
  induction s with
  | ret =>
      intro st i
      constructor
      · intro e he; exact absurd he (by simp [runScript])
      · intro st' log h
        simp only [runScript, Except.ok.injEq, Prod.mk.injEq] at h
        obtain ⟨h1, _⟩ := h
        subst h1
        exact ⟨rfl, rfl, rfl, rfl, Nat.le_refl _⟩
  | throwErr =>
      intro st i
      constructor
      · intro e he
        simp only [runScript, Except.error.injEq] at he
        subst he
        exact ⟨rfl, rfl, rfl, rfl, Nat.le_refl _⟩
      · intro st' log h; exact absurd h (by simp [runScript])
  | dependOn p k ih =>
      intro st i
      have hset : ∀ c, (st.setCtx i c).invalidContexts = st.invalidContexts ∧
          (st.setCtx i c).needsUpdateFlag = st.needsUpdateFlag ∧
          (st.setCtx i c).contextByDependency = st.contextByDependency ∧
          (st.setCtx i c).entryPoints = st.entryPoints ∧
          st.contexts.length ≤ (st.setCtx i c).contexts.length :=
        fun c => ⟨rfl, rfl, rfl, rfl, Nat.le_of_eq (List.length_set _ _ _).symm⟩
      constructor
      · intro e he
        simp only [runScript] at he
        obtain ⟨e1, e2, e3, e4, e5⟩ := (ih _ i).1 e he
        obtain ⟨f1, f2, f3, f4, f5⟩ := hset _
        exact ⟨e1.trans f1, e2.trans f2, e3.trans f3, e4.trans f4, f5.trans e5⟩
      · intro st' log h
        simp only [runScript] at h
        obtain ⟨e1, e2, e3, e4, e5⟩ := (ih _ i).2 st' log h
        obtain ⟨f1, f2, f3, f4, f5⟩ := hset _
        exact ⟨e1.trans f1, e2.trans f2, e3.trans f3, e4.trans f4, f5.trans e5⟩
  | doSub sub inputs k ihsub ihk =>
      intro st i
      set childIdx := st.contexts.length with hchild
      set st1 := { st with contexts :=
        st.contexts ++ [(⟨some i, sub, inputs, [], []⟩ : TaskContext)] } with hst1
      set st2 := st1.setCtx i
        { st1.ctx i with subTasks := (st1.ctx i).subTasks ++ [childIdx] } with hst2
      have h02 : st2.invalidContexts = st.invalidContexts ∧
          st2.needsUpdateFlag = st.needsUpdateFlag ∧
          st2.contextByDependency = st.contextByDependency ∧
          st2.entryPoints = st.entryPoints ∧
          st.contexts.length ≤ st2.contexts.length := by
        refine ⟨rfl, rfl, rfl, rfl, ?_⟩
        have hlen1 : st1.contexts.length = st.contexts.length + 1 := by
          simp [hst1]
        have hlen2 : st2.contexts.length = st1.contexts.length :=
          List.length_set _ _ _
        omega
      constructor
      · intro e he
        rcases hsub : runScript st2 childIdx sub with esub | ⟨st3, log1⟩
        · have heq : runScript st i (TaskScript.doSub sub inputs k) =
              Except.error esub := by
            simp only [runScript, ← hst1, ← hst2, ← hchild, hsub]
          rw [heq] at he
          obtain rfl : esub = e := by
            simpa using he
          obtain ⟨e1, e2, e3, e4, e5⟩ := (ihsub st2 childIdx).1 esub hsub
          obtain ⟨f1, f2, f3, f4, f5⟩ := h02
          exact ⟨e1.trans f1, e2.trans f2, e3.trans f3, e4.trans f4,
            f5.trans e5⟩
        · rcases hk : runScript st3 i k with ek | ⟨st4, log2⟩
          · have heq : runScript st i (TaskScript.doSub sub inputs k) =
                Except.error ek := by
              simp only [runScript, ← hst1, ← hst2, ← hchild, hsub, hk]
            rw [heq] at he
            obtain rfl : ek = e := by
              simpa using he
            obtain ⟨e1, e2, e3, e4, e5⟩ := (ihk st3 i).1 ek hk
            obtain ⟨g1, g2, g3, g4, g5⟩ := (ihsub st2 childIdx).2 st3 log1 hsub
            obtain ⟨f1, f2, f3, f4, f5⟩ := h02
            exact ⟨(e1.trans g1).trans f1, (e2.trans g2).trans f2,
              (e3.trans g3).trans f3, (e4.trans g4).trans f4,
              (f5.trans g5).trans e5⟩
          · have heq : runScript st i (TaskScript.doSub sub inputs k) =
                Except.ok (st4, (childIdx, inputs) :: log1 ++ log2) := by
              simp only [runScript, ← hst1, ← hst2, ← hchild, hsub, hk]
            rw [heq] at he
            exact absurd he (by simp)
      · intro st' log h
        rcases hsub : runScript st2 childIdx sub with esub | ⟨st3, log1⟩
        · have heq : runScript st i (TaskScript.doSub sub inputs k) =
              Except.error esub := by
            simp only [runScript, ← hst1, ← hst2, ← hchild, hsub]
          rw [heq] at h
          exact absurd h (by simp)
        · rcases hk : runScript st3 i k with ek | ⟨st4, log2⟩
          · have heq : runScript st i (TaskScript.doSub sub inputs k) =
                Except.error ek := by
              simp only [runScript, ← hst1, ← hst2, ← hchild, hsub, hk]
            rw [heq] at h
            exact absurd h (by simp)
          · have heq : runScript st i (TaskScript.doSub sub inputs k) =
                Except.ok (st4, (childIdx, inputs) :: log1 ++ log2) := by
              simp only [runScript, ← hst1, ← hst2, ← hchild, hsub, hk]
            rw [heq] at h
            simp only [Except.ok.injEq, Prod.mk.injEq] at h
            obtain ⟨h1, _⟩ := h
            subst h1
            obtain ⟨e1, e2, e3, e4, e5⟩ := (ihk st3 i).2 st4 log2 hk
            obtain ⟨g1, g2, g3, g4, g5⟩ := (ihsub st2 childIdx).2 st3 log1 hsub
            obtain ⟨f1, f2, f3, f4, f5⟩ := h02
            exact ⟨(e1.trans g1).trans f1, (e2.trans g2).trans f2,
              (e3.trans g3).trans f3, (e4.trans g4).trans f4,
              (f5.trans g5).trans e5⟩

/-- Proof that `TaskScript.fails` decides whether `runScript` raises. -/
theorem runScript_fails_spec (s : TaskScript) : ∀ (st : RunnerState) (i : Nat),
    (s.fails = true → ∃ e, runScript st i s = Except.error e) ∧
    (s.fails = false → ∃ r, runScript st i s = Except.ok r) := by
  induction s with
  | ret =>
      intro st i
      exact ⟨fun h => absurd h (by simp [TaskScript.fails]),
        fun _ => ⟨(st, []), rfl⟩⟩
  | throwErr =>
      intro st i
      exact ⟨fun _ => ⟨st, rfl⟩,
        fun h => absurd h (by simp [TaskScript.fails])⟩
  | dependOn p k ih =>
      intro st i
      simp only [TaskScript.fails, runScript]
      exact ih _ i
  | doSub sub inputs k ihsub ihk =>
      intro st i
      set childIdx := st.contexts.length with hchild
      set st1 := { st with contexts :=
        st.contexts ++ [(⟨some i, sub, inputs, [], []⟩ : TaskContext)] } with hst1
      set st2 := st1.setCtx i
        { st1.ctx i with subTasks := (st1.ctx i).subTasks ++ [childIdx] } with hst2
      constructor
      · intro h
        rcases hs : sub.fails with _ | _
        · have hk : k.fails = true := by
            rcases Bool.or_eq_true_iff.mp (by rw [← TaskScript.fails]; exact h) with h1 | h1
            · exact absurd h1 (by rw [hs]; simp)
            · exact h1
          obtain ⟨⟨st3, log1⟩, hok⟩ := (ihsub st2 childIdx).2 hs
          obtain ⟨e, he⟩ := (ihk st3 i).1 hk
          refine ⟨e, ?_⟩
          simp only [runScript, ← hst1, ← hst2, ← hchild, hok, he]
        · obtain ⟨e, he⟩ := (ihsub st2 childIdx).1 hs
          refine ⟨e, ?_⟩
          simp only [runScript, ← hst1, ← hst2, ← hchild, he]
      · intro h
        have hp : sub.fails = false ∧ k.fails = false := by
          have := h
          simp only [TaskScript.fails, Bool.or_eq_false_iff] at this
          exact this
        obtain ⟨⟨st3, log1⟩, hok⟩ := (ihsub st2 childIdx).2 hp.1
        obtain ⟨⟨st4, log2⟩, hok2⟩ := (ihk st3 i).2 hp.2
        refine ⟨(st4, (childIdx, inputs) :: log1 ++ log2), ?_⟩
        simp only [runScript, ← hst1, ← hst2, ← hchild, hok, hok2]

/-- Proof that `_gather` only rewrites the dependency index. -/
theorem indexAdd_spec (st : RunnerState) (p : String) (i : Nat) :
    (TaskRunner.indexAdd st p i).contexts = st.contexts ∧
    (TaskRunner.indexAdd st p i).entryPoints = st.entryPoints ∧
    (TaskRunner.indexAdd st p i).nextId = st.nextId ∧
    (TaskRunner.indexAdd st p i).needsUpdateFlag = st.needsUpdateFlag ∧
    (TaskRunner.indexAdd st p i).invalidContexts = st.invalidContexts := by
  unfold TaskRunner.indexAdd
  rcases lookupAssoc st.contextByDependency p with _ | item
  · exact ⟨rfl, rfl, rfl, rfl, rfl⟩
  · exact ⟨rfl, rfl, rfl, rfl, rfl⟩

/-- The preservation relation of `_gather`: everything except the dependency
index unchanged. -/
def GARel (a b : RunnerState) : Prop :=
  a.contexts = b.contexts ∧ a.entryPoints = b.entryPoints ∧
  a.nextId = b.nextId ∧ a.needsUpdateFlag = b.needsUpdateFlag ∧
  a.invalidContexts = b.invalidContexts

theorem gaRelRefl (a : RunnerState) : GARel a a :=
  ⟨rfl, rfl, rfl, rfl, rfl⟩

theorem gaRelTrans {a b c : RunnerState} (h1 : GARel a b) (h2 : GARel b c) :
    GARel a c := by
  obtain ⟨e1, e2, e3, e4, e5⟩ := h1
  obtain ⟨f1, f2, f3, f4, f5⟩ := h2
  exact ⟨e1.trans f1, e2.trans f2, e3.trans f3, e4.trans f4, e5.trans f5⟩

/-- Proof that `_gather` preserves everything except the dependency index. -/
theorem gatherAux_ga : ∀ (fuel : Nat) (st : RunnerState) (i : Nat),
    GARel (TaskRunner.gatherAux st fuel i) st := by
  intro fuel
  induction fuel with
  | zero => intro st i; exact gaRelRefl st
  | succ n ih =>
      intro st i
      simp only [TaskRunner.gatherAux]
      have h1 : ∀ (s : RunnerState) (p : String), GARel (TaskRunner.indexAdd s p i) s := by
        intro s p
        obtain ⟨e1, e2, e3, e4, e5⟩ := indexAdd_spec s p i
        exact ⟨e1, e2, e3, e4, e5⟩
      have h2 : GARel (List.foldl (fun s p => TaskRunner.indexAdd s p i) st
          (st.ctx i).declaredPaths) st :=
        foldl_preserve gaRelRefl (fun _ _ _ a b => gaRelTrans a b)
          (fun a b => h1 a b) _ st
      have h3 : GARel
          (List.foldl (fun s j => TaskRunner.gatherAux s n j)
            (List.foldl (fun s p => TaskRunner.indexAdd s p i) st
              (st.ctx i).declaredPaths)
            ((List.foldl (fun s p => TaskRunner.indexAdd s p i) st
              (st.ctx i).declaredPaths).ctx i).subTasks)
          (List.foldl (fun s p => TaskRunner.indexAdd s p i) st
            (st.ctx i).declaredPaths) :=
        foldl_preserve gaRelRefl (fun _ _ _ a b => gaRelTrans a b)
          (fun a b => ih a b) _ _
      exact gaRelTrans h3 h2

/-- Proof that `_prune` with its standard fuel, as a preservation fact. -/
theorem prune_pr (st : RunnerState) (i : Nat) :
    PRRel (TaskRunner.prune st i) st :=
  pruneAux_pr st.contexts.length st i

/-- Proof that `_gather` with its standard fuel, as a preservation fact. -/
theorem gather_ga (st : RunnerState) (i : Nat) :
    GARel (TaskRunner.gather st i) st :=
  gatherAux_ga st.contexts.length st i

/-- Proof that `_markValid` with its standard fuel, as a preservation fact. -/
theorem markValid_mv (st : RunnerState) (i : Nat) :
    MVRel (TaskRunner.markValid st i) st :=
  markValidAux_mv st.contexts.length st i

/-- Proof that `_markValid` on a non-empty arena erases its argument from a shrunk
invalid list. -/
theorem markValid_erase (st : RunnerState) (i : Nat)
    (h : 0 < st.contexts.length) :
    ∃ u, List.Sublist u st.invalidContexts ∧
      (TaskRunner.markValid st i).invalidContexts = removeFromArray u i :=
  markValidAux_erase st.contexts.length st i h

/-- Proof that `_prune` on a non-empty arena erases its argument from a shrunk invalid
list. -/
theorem prune_erase (st : RunnerState) (i : Nat)
    (h : 0 < st.contexts.length) :
    ∃ u, List.Sublist u st.invalidContexts ∧
      (TaskRunner.prune st i).invalidContexts = removeFromArray u i :=
  pruneAux_erase st.contexts.length st i h h

/-- A successful `update` pass empties the invalid list and leaves the flag
alone: every snapshot element is erased by its own iteration, nothing is ever
re-added, and (with a duplicate-free invalid list of live contexts) no
occurrence survives. -/
theorem updateLoop_empties : ∀ (snapshot : List Nat) (st st' : RunnerState)
    (log : List (Nat × List String)),
    st.invalidContexts.Nodup →
    (∀ x ∈ st.invalidContexts, x ∈ snapshot) →
    (∀ x ∈ st.invalidContexts, x < st.contexts.length) →
    TaskRunner.updateLoop st snapshot = Except.ok (st', log) →
    st'.invalidContexts = [] ∧ st'.needsUpdateFlag = st.needsUpdateFlag := by
  intro snapshot
  induction snapshot with
  | nil =>
      intro st st' log _ hmem _ h
      simp only [TaskRunner.updateLoop, Except.ok.injEq, Prod.mk.injEq] at h
      obtain ⟨h1, _⟩ := h
      subst h1
      exact ⟨List.eq_nil_iff_forall_not_mem.mpr
        (fun x hx => List.not_mem_nil x (hmem x hx)), rfl⟩
  | cons c rest ih =>
      intro st st' log hnd hmem hbound h
      have hpr : PRRel (TaskRunner.prune st c) st := prune_pr st c
      rcases hsc : runScript (TaskRunner.prune st c) c (st.ctx c).task
        with e | ⟨st2, log1⟩
      · have heq : TaskRunner.updateLoop st (c :: rest) = Except.error e := by
          simp only [TaskRunner.updateLoop, hsc]
        rw [heq] at h
        exact absurd h (by simp)
      · rcases hloop : TaskRunner.updateLoop
            (TaskRunner.markValid (TaskRunner.gather st2 c) c) rest
          with e2 | ⟨st5, log2⟩
        · have heq : TaskRunner.updateLoop st (c :: rest) = Except.error e2 := by
            simp only [TaskRunner.updateLoop, hsc, hloop]
          rw [heq] at h
          exact absurd h (by simp)
        · have heq : TaskRunner.updateLoop st (c :: rest) =
              Except.ok (st5, (c, (st.ctx c).inputs) :: log1 ++ log2) := by
            simp only [TaskRunner.updateLoop, hsc, hloop]
          rw [heq] at h
          simp only [Except.ok.injEq, Prod.mk.injEq] at h
          obtain ⟨h1, _⟩ := h
          subst h1
          obtain ⟨r1, r2, r3, r4, r5⟩ :=
            (runScript_spec _ (TaskRunner.prune st c) c).2 st2 log1 hsc
          obtain ⟨g1, g2, g3, g4, g5⟩ := gather_ga st2 c
          have hinv3 : (TaskRunner.gather st2 c).invalidContexts =
              (TaskRunner.prune st c).invalidContexts := g5.trans r1
          have hflag3 : (TaskRunner.gather st2 c).needsUpdateFlag =
              st.needsUpdateFlag := (g4.trans r2).trans hpr.2.2.2.1
          have hlen3 : st.contexts.length ≤ (TaskRunner.gather st2 c).contexts.length := by
            have e1 : (TaskRunner.prune st c).contexts.length = st.contexts.length :=
              hpr.1
            have e2 : (TaskRunner.gather st2 c).contexts.length = st2.contexts.length :=
              congrArg List.length g1
            omega
          have hsub1 : List.Sublist (TaskRunner.prune st c).invalidContexts
              st.invalidContexts := hpr.2.2.2.2
          obtain ⟨m1, m2, m3, m4, m5, m6⟩ :=
            markValid_mv (TaskRunner.gather st2 c) c
          rcases Nat.eq_zero_or_pos (TaskRunner.gather st2 c).contexts.length
            with hz | hpos
          · have hstnil : st.invalidContexts = [] := by
              rcases hx : st.invalidContexts with _ | ⟨a, l⟩
              · rfl
              · have ha : a < st.contexts.length := hbound a (by rw [hx]; simp)
                omega
            have h1nil : (TaskRunner.prune st c).invalidContexts = [] :=
              List.sublist_nil.mp (hstnil ▸ hsub1)
            have h4 : (TaskRunner.markValid (TaskRunner.gather st2 c) c).invalidContexts = [] := by
              have h3nil : (TaskRunner.gather st2 c).invalidContexts = [] :=
                hinv3.trans h1nil
              exact List.sublist_nil.mp (h3nil ▸ m6)
            obtain ⟨c1, c2⟩ := ih _ st5 log2 (h4 ▸ List.nodup_nil)
              (fun x hx => absurd (h4 ▸ hx) (List.not_mem_nil x))
              (fun x hx => absurd (h4 ▸ hx) (List.not_mem_nil x)) hloop
            exact ⟨c1, c2.trans (m5.trans hflag3)⟩
          · obtain ⟨u, hu, h4eq⟩ :=
              markValid_erase (TaskRunner.gather st2 c) c hpos
            have hund : u.Nodup :=
              ((hu.trans (hinv3 ▸ hsub1)).nodup hnd)
            have h4nd : (TaskRunner.markValid (TaskRunner.gather st2 c) c).invalidContexts.Nodup := by
              rw [h4eq]
              exact hund.erase c
            have h4mem : ∀ x ∈ (TaskRunner.markValid (TaskRunner.gather st2 c) c).invalidContexts,
                x ∈ rest := by
              intro x hx
              rw [h4eq] at hx
              simp only [removeFromArray] at hx
              have hxc : x ≠ c ∧ x ∈ u := (hund.mem_erase_iff).mp hx
              have hxst : x ∈ st.invalidContexts :=
                hsub1.mem (hinv3 ▸ hu.mem hxc.2)
              rcases List.mem_cons.mp (hmem x hxst) with h1 | h2
              · exact absurd h1 hxc.1
              · exact h2
            have h4len : ∀ x ∈ (TaskRunner.markValid (TaskRunner.gather st2 c) c).invalidContexts,
                x < (TaskRunner.markValid (TaskRunner.gather st2 c) c).contexts.length := by
              intro x hx
              rw [h4eq] at hx
              simp only [removeFromArray] at hx
              have hxst : x ∈ st.invalidContexts :=
                hsub1.mem (hinv3 ▸ hu.mem (List.mem_of_mem_erase hx))
              have hxb : x < st.contexts.length := hbound x hxst
              have hlen4 : (TaskRunner.markValid (TaskRunner.gather st2 c) c).contexts.length =
                  (TaskRunner.gather st2 c).contexts.length :=
                congrArg List.length m1
              omega
            obtain ⟨c1, c2⟩ := ih _ st5 log2 h4nd h4mem h4len hloop
            exact ⟨c1, c2.trans (m5.trans hflag3)⟩

/-- The state after `update()` (its `.ok` state, or the state at the moment
of the raise). -/
def updateStateOf (st : RunnerState) : RunnerState :=
  match TaskRunner.update st with
  | Except.ok r => r.1
  | Except.error e => e

/-- The log of task-callback invocations performed by a completed
`update()`. -/
def updateLogOf (st : RunnerState) : List (Nat × List String) :=
  match TaskRunner.update st with
  | Except.ok r => r.2
  | Except.error _ => []

/-- A record update writing an already-false flag is the identity. -/
theorem flagFalse_eta (s : RunnerState) (h : s.needsUpdateFlag = false) :
    ({ s with needsUpdateFlag := false } : RunnerState) = s := by
  cases s
  simp only at h
  simp [h]

/-- C8: after an `update()` call completes successfully (on a well-formed
state: duplicate-free invalid list of live contexts) and nothing is
invalidated in between, `needsUpdate` is false and a second `update()` call
executes zero task callbacks and leaves the state unchanged. -/
theorem update_idempotent_when_unchanged (st st' : RunnerState)
    (log : List (Nat × List String))
    (hnd : st.invalidContexts.Nodup)
    (hbound : ∀ x ∈ st.invalidContexts, x < st.contexts.length)
    (hok : TaskRunner.update st = Except.ok (st', log)) :
    TaskRunner.needsUpdate st' = false ∧
    TaskRunner.update st' = Except.ok (st', []) := by
  have hok' : TaskRunner.updateLoop { st with needsUpdateFlag := false }
      ({ st with needsUpdateFlag := false } : RunnerState).invalidContexts =
      Except.ok (st', log) := hok
  obtain ⟨hinv, hflag⟩ := updateLoop_empties
    ({ st with needsUpdateFlag := false } : RunnerState).invalidContexts
    { st with needsUpdateFlag := false } st' log hnd
    (fun x hx => hx) hbound hok'
  have hflag' : st'.needsUpdateFlag = false := hflag
  constructor
  · simp [TaskRunner.needsUpdate, hflag', hinv]
  · have heta : ({ st' with needsUpdateFlag := false } : RunnerState) = st' :=
      flagFalse_eta st' hflag'
    show TaskRunner.updateLoop { st' with needsUpdateFlag := false }
      ({ st' with needsUpdateFlag := false } : RunnerState).invalidContexts =
      Except.ok (st', [])
    rw [heta, hinv]
    rfl

def W8state : RunnerState :=
  (TaskRunner.add RunnerState.init TaskScript.ret ["a"]).2

theorem update_idempotent_when_unchanged_witness :
    TaskRunner.needsUpdate (updateStateOf W8state) = false ∧
    TaskRunner.update (updateStateOf W8state) =
      Except.ok (updateStateOf W8state, []) :=
  update_idempotent_when_unchanged W8state (updateStateOf W8state)
    (updateLogOf W8state) (by decide) (by decide) rfl

/-- C2 (counterexample): a task that raises does propagate its error out of
`update()`, but the offending context is not in the invalid set afterwards —
`_prune`, which runs before the callback, already marked it valid. -/
theorem update_error_context_not_retained :
    0 ∈ ((TaskRunner.add RunnerState.init TaskScript.throwErr ["a"]).2).invalidContexts ∧
    TaskRunner.update (TaskRunner.add RunnerState.init TaskScript.throwErr ["a"]).2 =
      Except.error
        (updateStateOf (TaskRunner.add RunnerState.init TaskScript.throwErr ["a"]).2) ∧
    0 ∉ (updateStateOf
        (TaskRunner.add RunnerState.init TaskScript.throwErr ["a"]).2).invalidContexts :=
  ⟨by decide, rfl, by decide⟩

/-- C2 (amended): when the single invalid context's callback raises, the
error propagates out of `update()`, but the context has already been removed
from the invalid set by the pre-execution prune, so `needsUpdate` is false
afterwards and a subsequent `update()` executes zero callbacks instead of
retrying it. -/
theorem update_error_drops_failing_context (st : RunnerState) (c : Nat)
    (hinv : st.invalidContexts = [c])
    (hc : c < st.contexts.length)
    (hfail : (st.ctx c).task.fails = true) :
    ∃ e, TaskRunner.update st = Except.error e ∧
      e.invalidContexts = [] ∧
      TaskRunner.needsUpdate e = false ∧
      TaskRunner.update e = Except.ok (e, []) := by
  have hpos : 0 < st.contexts.length := Nat.lt_of_le_of_lt (Nat.zero_le c) hc
  set st0 : RunnerState := { st with needsUpdateFlag := false } with hst0
  have hinv0 : st0.invalidContexts = [c] := hinv
  have hpos0 : 0 < st0.contexts.length := hpos
  obtain ⟨u, hu, hprinv⟩ := prune_erase st0 c hpos0
  have hprnil : (TaskRunner.prune st0 c).invalidContexts = [] := by
    rw [hprinv]
    rw [hinv0] at hu
    rcases List.sublist_singleton.mp hu with h1 | h1
    · rw [h1]; rfl
    · rw [h1]
      simp [removeFromArray]
  have htask : (st0.ctx c).task.fails = true := hfail
  obtain ⟨e, he⟩ :=
    (runScript_fails_spec ((st0.ctx c).task) (TaskRunner.prune st0 c) c).1 htask
  have heq : TaskRunner.update st = Except.error e := by
    show TaskRunner.updateLoop st0 st0.invalidContexts = Except.error e
    rw [hinv0]
    simp only [TaskRunner.updateLoop, he]
  obtain ⟨e1, e2, _, _, _⟩ := (runScript_spec _ (TaskRunner.prune st0 c) c).1 e he
  have heinv : e.invalidContexts = [] := e1.trans hprnil
  have heflag : e.needsUpdateFlag = false :=
    e2.trans (prune_pr st0 c).2.2.2.1
  refine ⟨e, heq, heinv, ?_, ?_⟩
  · simp [TaskRunner.needsUpdate, heflag, heinv]
  · have heta : ({ e with needsUpdateFlag := false } : RunnerState) = e :=
      flagFalse_eta e heflag
    show TaskRunner.updateLoop { e with needsUpdateFlag := false }
      ({ e with needsUpdateFlag := false } : RunnerState).invalidContexts =
      Except.ok (e, [])
    rw [heta, heinv]
    rfl

def W2state : RunnerState :=
  (TaskRunner.add RunnerState.init TaskScript.throwErr ["b"]).2

theorem update_error_drops_failing_context_witness :
    ∃ e, TaskRunner.update W2state = Except.error e ∧
      e.invalidContexts = [] ∧
      TaskRunner.needsUpdate e = false ∧
      TaskRunner.update e = Except.ok (e, []) :=
  update_error_drops_failing_context W2state 0 (by decide) (by decide)
    (by decide)

/-- C10: removing a registered entry point (here: from a state with an empty
invalid set) makes `needsUpdate` true although no context is pending; the
next `update()` then executes zero task callbacks and resets `needsUpdate`
to false. -/
theorem remove_needsUpdate_without_pending (st : RunnerState) (id i : Nat)
    (hid : st.entryPoints.lookup id = some i)
    (hinv : st.invalidContexts = []) :
    TaskRunner.needsUpdate (TaskRunner.remove st id) = true ∧
    (TaskRunner.remove st id).invalidContexts = [] ∧
    ∃ st2, TaskRunner.update (TaskRunner.remove st id) = Except.ok (st2, []) ∧
      TaskRunner.needsUpdate st2 = false := by
  have hrm : TaskRunner.remove st id =
      { TaskRunner.prune st i with
        entryPoints := (TaskRunner.prune st i).entryPoints.filter
          (fun e => e.1 ≠ id),
        needsUpdateFlag := true } := by
    simp only [TaskRunner.remove, hid]
  have hprinv : (TaskRunner.prune st i).invalidContexts = [] :=
    List.sublist_nil.mp (hinv ▸ (prune_pr st i).2.2.2.2)
  have hrinv : (TaskRunner.remove st id).invalidContexts = [] := by
    rw [hrm]
    exact hprinv
  refine ⟨by simp [TaskRunner.needsUpdate, hrm], hrinv, ?_⟩
  refine ⟨{ TaskRunner.remove st id with needsUpdateFlag := false }, ?_, ?_⟩
  · show TaskRunner.updateLoop
      { TaskRunner.remove st id with needsUpdateFlag := false }
      ({ TaskRunner.remove st id with needsUpdateFlag := false } :
        RunnerState).invalidContexts = _
    have : ({ TaskRunner.remove st id with needsUpdateFlag := false } :
        RunnerState).invalidContexts = [] := hrinv
    rw [this]
    rfl
  · simp [TaskRunner.needsUpdate, hrinv]

def W10state : RunnerState := updateStateOf W8state

theorem remove_needsUpdate_without_pending_witness :
    TaskRunner.needsUpdate (TaskRunner.remove W10state 0) = true ∧
    (TaskRunner.remove W10state 0).invalidContexts = [] ∧
    ∃ st2, TaskRunner.update (TaskRunner.remove W10state 0) =
        Except.ok (st2, []) ∧
      TaskRunner.needsUpdate st2 = false :=
  remove_needsUpdate_without_pending W10state 0 0 (by decide) (by decide)

def dominanceScript : TaskScript :=
  TaskScript.dependOn "p"
    (TaskScript.doSub (TaskScript.dependOn "q" TaskScript.ret) [] TaskScript.ret)

/-- The runner after registering `dominanceScript`, one `update()` (which
creates sub-context 1 under entry context 0 and indexes `p ↦ 0`, `q ↦ 1`),
then `invalidatePath("p", change)` and `invalidatePath("q", change)`. -/
def C1state : RunnerState :=
  TaskRunner.invalidatePath
    (TaskRunner.invalidatePath
      (updateStateOf (TaskRunner.add RunnerState.init dominanceScript []).2)
      "p" ChangeType.change)
    "q" ChangeType.change

/-- C1: the dominance invariant fails on the code.  After invalidating a
dependency of entry context 0 and then a dependency of its true descendant 1,
the invalid set contains both 0 and 1 (the claim says it must contain the
ancestor only).  `TaskContext.isDescendantOf` tests `other === this` instead
of comparing against the chain cursor, so it never recognises the real
parent-chain relation and the dominance pruning in `_invalidate` is dead. -/
theorem invalid_set_keeps_true_descendant :
    C1state.invalidContexts = [0, 1] ∧
    (C1state.ctx 1).parent = some 0 ∧
    isDescendantIntended C1state 1 0 = true ∧
    TaskContext.isDescendantOf C1state 1 0 = false := by
  refine ⟨by decide, by decide, by decide, by decide⟩

/-- Proof that `List.getD` after `set` at the same (in-range) position. -/
theorem getD_set_self {α : Type} : ∀ (l : List α) (i : Nat) (c d : α),
    i < l.length → (l.set i c).getD i d = c
  | [], i, _, _, h => absurd h (by simp)
  | _ :: _, 0, _, _, _ => rfl
  | _ :: l, i + 1, c, d, h =>
      getD_set_self l i c d (Nat.lt_of_succ_lt_succ (by simpa using h))

/-- Proof that `List.getD` after `set` at a different position. -/
theorem getD_set_ne {α : Type} : ∀ (l : List α) (i j : Nat) (c d : α),
    i ≠ j → (l.set j c).getD i d = l.getD i d
  | [], _, _, _, _, _ => rfl
  | _ :: _, 0, 0, _, _, h => absurd rfl h
  | _ :: _, 0, _ + 1, _, _, _ => rfl
  | _ :: _, _ + 1, 0, _, _, _ => rfl
  | _ :: l, i + 1, j + 1, c, d, h =>
      getD_set_ne l i j c d (fun he => h (congrArg Nat.succ he))

/-- Reading back the context written by `setCtx`. -/
theorem ctx_setCtx_self (st : RunnerState) (i : Nat) (c : TaskContext)
    (h : i < st.contexts.length) : (st.setCtx i c).ctx i = c :=
  getD_set_self st.contexts i c default h

/-- Proof that `setCtx` leaves other contexts alone. -/
theorem ctx_setCtx_ne (st : RunnerState) (i j : Nat) (c : TaskContext)
    (h : i ≠ j) : (st.setCtx j c).ctx i = st.ctx i :=
  getD_set_ne st.contexts i j c default h

/-- The `delete` loop of `invalidatePath` leaves contexts outside the indexed
set untouched. -/
theorem eraseInputs_foldl_notmem (p : String) :
    ∀ (ctxs : List Nat) (st : RunnerState) (i : Nat), i ∉ ctxs →
    (List.foldl (fun s j => s.setCtx j { s.ctx j with
        inputs := removeFromArrayStr (s.ctx j).inputs p }) st ctxs).ctx i =
      st.ctx i := by
  intro ctxs
  induction ctxs with
  | nil => intro st i _; rfl
  | cons j rest ih =>
      intro st i h
      have hne : i ≠ j := fun he => h (he ▸ List.mem_cons_self j rest)
      have hrest : i ∉ rest := fun hm => h (List.mem_cons_of_mem j hm)
      rw [List.foldl_cons, ih _ i hrest, ctx_setCtx_ne _ i j _ hne]

/-- The `delete` loop of `invalidatePath` erases the path once from each
indexed context's inputs. -/
theorem eraseInputs_foldl_mem (p : String) :
    ∀ (ctxs : List Nat) (st : RunnerState) (i : Nat), ctxs.Nodup →
      i ∈ ctxs → i < st.contexts.length →
    (List.foldl (fun s j => s.setCtx j { s.ctx j with
        inputs := removeFromArrayStr (s.ctx j).inputs p }) st ctxs).ctx i =
      { st.ctx i with inputs := removeFromArrayStr (st.ctx i).inputs p } := by
  intro ctxs
  induction ctxs with
  | nil => intro st i _ h _; exact absurd h (List.not_mem_nil i)
  | cons j rest ih =>
      intro st i hnd hmem hlen
      rcases List.mem_cons.mp hmem with h1 | h1
      · subst h1
        have hrest : i ∉ rest := (List.nodup_cons.mp hnd).1
        rw [List.foldl_cons, eraseInputs_foldl_notmem p rest _ i hrest,
          ctx_setCtx_self _ i _ hlen]
      · have hne : i ≠ j := by
          rintro rfl
          exact (List.nodup_cons.mp hnd).1 h1
        have hlen' : i < (st.setCtx j { st.ctx j with
            inputs := removeFromArrayStr (st.ctx j).inputs p }).contexts.length := by
          have := List.length_set st.contexts j { st.ctx j with
            inputs := removeFromArrayStr (st.ctx j).inputs p }
          simp only [RunnerState.setCtx] at *
          omega
        rw [List.foldl_cons, ih _ i (List.nodup_cons.mp hnd).2 h1 hlen',
          ctx_setCtx_ne _ i j _ hne]

/-- Proof that `_invalidate` only rewrites the invalid list; contexts are untouched. -/
theorem invalidate_ctx (st : RunnerState) (cs : List Nat) (i : Nat) :
    (TaskRunner.invalidate st cs).ctx i = st.ctx i := rfl

/-- C7 (counterexample): a freshly registered context has `"a"` in its
inputs, but `invalidatePath("a", delete)` does not remove it — the context is
not yet in the dependency index (it only enters on the first `update()`), and
`invalidatePath` consults only the index. -/
theorem delete_misses_unindexed_input :
    (((TaskRunner.add RunnerState.init TaskScript.ret ["a"]).2).entryPoints = [(0, 0)]) ∧
    "a" ∈ (((TaskRunner.add RunnerState.init TaskScript.ret ["a"]).2).ctx 0).inputs ∧
    "a" ∈ ((TaskRunner.invalidatePath
        (TaskRunner.add RunnerState.init TaskScript.ret ["a"]).2
        "a" ChangeType.delete).ctx 0).inputs := by
  refine ⟨by decide, by decide, by decide⟩

/-- C7 (amended): `invalidatePath(P, delete)` removes the first occurrence of
`P` from the inputs of exactly the contexts the dependency index maps `P` to;
if such a context listed `P` at most once its inputs no longer contain `P`,
and when it is the sole invalid context, the next `update()` invokes its
callback with exactly those updated inputs. -/
theorem invalidatePath_delete_erases_indexed (st : RunnerState) (p : String)
    (ctxs : List Nat) (i : Nat)
    (hl : lookupAssoc st.contextByDependency p = some ctxs)
    (hnd : ctxs.Nodup) (hi : i ∈ ctxs) (hlen : i < st.contexts.length) :
    (((TaskRunner.invalidatePath st p ChangeType.delete).ctx i).inputs =
        removeFromArrayStr (st.ctx i).inputs p) ∧
    ((st.ctx i).inputs.count p ≤ 1 →
      p ∉ ((TaskRunner.invalidatePath st p ChangeType.delete).ctx i).inputs) ∧
    (∀ st2, st2 = TaskRunner.invalidatePath st p ChangeType.delete →
      st2.invalidContexts = [i] → (st2.ctx i).task.fails = false →
      ∃ st3 rest, TaskRunner.update st2 =
        Except.ok (st3, (i, (st2.ctx i).inputs) :: rest)) := by
  have hctx : (TaskRunner.invalidatePath st p ChangeType.delete).ctx i =
      { st.ctx i with inputs := removeFromArrayStr (st.ctx i).inputs p } := by
    simp only [TaskRunner.invalidatePath, hl]
    rw [invalidate_ctx]
    simp only [reduceIte]
    exact eraseInputs_foldl_mem p ctxs st i hnd hi hlen
  refine ⟨by rw [hctx], ?_, ?_⟩
  · intro hcount
    rw [hctx]
    simp only [removeFromArrayStr]
    have h0 : List.count p ((st.ctx i).inputs.erase p) = 0 := by
      rw [List.count_erase_self]
      omega
    exact fun hmem => by
      have := List.count_pos_iff.mpr hmem
      omega
  · intro st2 hst2 hinv2 hfail2
    set stz : RunnerState := { st2 with needsUpdateFlag := false } with hstz
    have hctxz : stz.ctx i = st2.ctx i := rfl
    obtain ⟨⟨st3, log1⟩, hok⟩ :=
      (runScript_fails_spec ((st2.ctx i).task)
        (TaskRunner.prune stz i) i).2 hfail2
    refine ⟨TaskRunner.markValid (TaskRunner.gather st3 i) i, log1 ++ [], ?_⟩
    show TaskRunner.updateLoop stz stz.invalidContexts = _
    have hinvz : stz.invalidContexts = [i] := hinv2
    rw [hinvz]
    simp only [TaskRunner.updateLoop, hctxz, hok]
    rfl

def W7state : RunnerState :=
  updateStateOf (TaskRunner.add RunnerState.init TaskScript.ret ["a"]).2

theorem invalidatePath_delete_erases_indexed_witness :
    (((TaskRunner.invalidatePath W7state "a" ChangeType.delete).ctx 0).inputs =
        removeFromArrayStr (W7state.ctx 0).inputs "a") ∧
    "a" ∉ ((TaskRunner.invalidatePath W7state "a" ChangeType.delete).ctx 0).inputs ∧
    ∃ st3 rest,
      TaskRunner.update (TaskRunner.invalidatePath W7state "a" ChangeType.delete) =
        Except.ok (st3, (0, ((TaskRunner.invalidatePath W7state "a"
          ChangeType.delete).ctx 0).inputs) :: rest) :=
  have h := invalidatePath_delete_erases_indexed W7state "a" [0] 0 (by decide)
    (by decide) (by decide) (by decide)
  ⟨h.1, h.2.1 (by decide), h.2.2 _ rfl (by decide) (by decide)⟩

/-- Updating an existing key is seen by a lookup of that key. -/
theorem lookupAssoc_setAssoc_self {α : Type} :
    ∀ (l : List (String × α)) (k : String) (v v0 : α),
      lookupAssoc l k = some v0 →
      lookupAssoc (setAssoc l k v) k = some v := by
  intro l
  induction l with
  | nil => intro k v v0 h; exact absurd h (by simp [lookupAssoc])
  | cons e rest ih =>
      intro k v v0 h
      obtain ⟨k', v'⟩ := e
      by_cases hk : k' = k
      · subst hk
        simp [lookupAssoc, setAssoc]
      · simp only [lookupAssoc, setAssoc, if_neg hk] at h ⊢
        exact ih k v v0 h

/-- Updating one key leaves lookups of other keys alone. -/
theorem lookupAssoc_setAssoc_ne {α : Type} :
    ∀ (l : List (String × α)) (k k' : String) (v : α), k' ≠ k →
      lookupAssoc (setAssoc l k v) k' = lookupAssoc l k' := by
  intro l
  induction l with
  | nil => intro k k' v _; rfl
  | cons e rest ih =>
      intro k k' v hne
      obtain ⟨k0, v0⟩ := e
      by_cases hk : k0 = k
      · subst hk
        simp only [setAssoc, if_pos rfl, lookupAssoc]
        rw [if_neg (fun h => hne h.symm)]
        rw [if_neg (fun h => hne h.symm)]
      · simp only [setAssoc, if_neg hk, lookupAssoc]
        by_cases hk0 : k0 = k'
        · rw [if_pos hk0, if_pos hk0]
        · rw [if_neg hk0, if_neg hk0]
          exact ih k k' v hne

/-- A present key is still found after appending entries. -/
theorem lookupAssoc_append_some {α : Type} :
    ∀ (l m : List (String × α)) (k : String) (v : α),
      lookupAssoc l k = some v → lookupAssoc (l ++ m) k = some v := by
  intro l
  induction l with
  | nil => intro m k v h; exact absurd h (by simp [lookupAssoc])
  | cons e rest ih =>
      intro m k v h
      obtain ⟨k0, v0⟩ := e
      simp only [lookupAssoc, List.cons_append] at h ⊢
      by_cases hk : k0 = k
      · rw [if_pos hk] at h ⊢; exact h
      · rw [if_neg hk] at h ⊢; exact ih m k v h

/-- An absent key falls through to the appended entries. -/
theorem lookupAssoc_append_none {α : Type} :
    ∀ (l m : List (String × α)) (k : String),
      lookupAssoc l k = none → lookupAssoc (l ++ m) k = lookupAssoc m k := by
  intro l
  induction l with
  | nil => intro m k _; rfl
  | cons e rest ih =>
      intro m k h
      obtain ⟨k0, v0⟩ := e
      simp only [lookupAssoc, List.cons_append] at h ⊢
      by_cases hk : k0 = k
      · rw [if_pos hk] at h; exact absurd h (by simp)
      · rw [if_neg hk] at h ⊢; exact ih m k h

/-- Adding to a JS set makes the element a member. -/
theorem mem_setAddNat_self (l : List Nat) (x : Nat) : x ∈ setAddNat l x := by
  unfold setAddNat
  by_cases h : x ∈ l
  · rw [if_pos h]; exact h
  · rw [if_neg h]; simp

/-- Adding to a JS set keeps the old members. -/
theorem mem_setAddNat_of_mem (l : List Nat) (x y : Nat) (h : y ∈ l) :
    y ∈ setAddNat l x := by
  unfold setAddNat
  by_cases hx : x ∈ l
  · rw [if_pos hx]; exact h
  · rw [if_neg hx]; exact List.mem_append_left _ h

/-- Proof that `indexAdd` indexes the context under the path. -/
theorem indexAdd_mem_self (st : RunnerState) (p : String) (i : Nat) :
    i ∈ (lookupAssoc (TaskRunner.indexAdd st p i).contextByDependency p).getD [] := by
  unfold TaskRunner.indexAdd
  rcases hl : lookupAssoc st.contextByDependency p with _ | item
  · simp only []
    rw [lookupAssoc_append_none st.contextByDependency _ p hl]
    simp [lookupAssoc]
  · simp only []
    rw [lookupAssoc_setAssoc_self st.contextByDependency p _ item hl]
    simpa using mem_setAddNat_self item i

/-- Proof that `indexAdd` never removes an index entry. -/
theorem indexAdd_mem_mono (st : RunnerState) (p : String) (i : Nat)
    (q : String) (j : Nat)
    (h : j ∈ (lookupAssoc st.contextByDependency q).getD []) :
    j ∈ (lookupAssoc (TaskRunner.indexAdd st p i).contextByDependency q).getD [] := by
  rcases hq : lookupAssoc st.contextByDependency q with _ | s
  · rw [hq] at h; exact absurd h (by simp)
  · rw [hq] at h
    simp only [Option.getD] at h
    unfold TaskRunner.indexAdd
    rcases hl : lookupAssoc st.contextByDependency p with _ | item
    · simp only []
      rw [lookupAssoc_append_some st.contextByDependency _ q s hq]
      simpa using h
    · simp only []
      by_cases hpq : q = p
      · subst hpq
        rw [hq] at hl
        obtain rfl : s = item := by injection hl
        rw [lookupAssoc_setAssoc_self st.contextByDependency q _ s hq]
        simpa using mem_setAddNat_of_mem s i j h
      · rw [lookupAssoc_setAssoc_ne st.contextByDependency p q _ hpq, hq]
        simpa using h

/-- Folding `indexAdd` over a path list never removes an index entry. -/
theorem indexAdd_foldl_mono (i : Nat) :
    ∀ (paths : List String) (st : RunnerState) (q : String) (j : Nat),
      j ∈ (lookupAssoc st.contextByDependency q).getD [] →
      j ∈ (lookupAssoc (List.foldl (fun s r => TaskRunner.indexAdd s r i) st
        paths).contextByDependency q).getD [] := by
  intro paths
  induction paths with
  | nil => intro st q j h; exact h
  | cons r rest ih =>
      intro st q j h
      rw [List.foldl_cons]
      exact ih _ q j (indexAdd_mem_mono st r i q j h)

/-- After folding `indexAdd` over a path list, the context is indexed under
every path in the list. -/
theorem indexAdd_foldl_mem (i : Nat) :
    ∀ (paths : List String) (st : RunnerState) (p : String), p ∈ paths →
      i ∈ (lookupAssoc (List.foldl (fun s r => TaskRunner.indexAdd s r i) st
        paths).contextByDependency p).getD [] := by
  intro paths
  induction paths with
  | nil => intro st p h; exact absurd h (List.not_mem_nil p)
  | cons r rest ih =>
      intro st p h
      rw [List.foldl_cons]
      rcases List.mem_cons.mp h with h1 | h1
      · subst h1
        exact indexAdd_foldl_mono i rest _ p i (indexAdd_mem_self st p i)
      · exact ih _ p h1

/-- Proof that `_gather` never removes an index entry. -/
theorem gatherAux_index_mono : ∀ (fuel : Nat) (st : RunnerState) (i : Nat)
    (q : String) (j : Nat),
    j ∈ (lookupAssoc st.contextByDependency q).getD [] →
    j ∈ (lookupAssoc (TaskRunner.gatherAux st fuel i).contextByDependency q).getD [] := by
  intro fuel
  induction fuel with
  | zero => intro st i q j h; exact h
  | succ n ih =>
      intro st i q j h
      simp only [TaskRunner.gatherAux]
      have h1 := indexAdd_foldl_mono i (st.ctx i).declaredPaths st q j h
      have hR : ∀ (l : List Nat) (s : RunnerState),
          j ∈ (lookupAssoc s.contextByDependency q).getD [] →
          j ∈ (lookupAssoc (List.foldl (fun s' j' => TaskRunner.gatherAux s' n j') s
            l).contextByDependency q).getD [] := by
        intro l
        induction l with
        | nil => intro s hs; exact hs
        | cons a rest ihl =>
            intro s hs
            rw [List.foldl_cons]
            exact ihl _ (ih s a q j hs)
      exact hR _ _ h1

/-- Folding `_gather` over a context list never removes an index entry. -/
theorem gatherAux_foldl_index_mono (n : Nat) :
    ∀ (l : List Nat) (s : RunnerState) (q : String) (j : Nat),
      j ∈ (lookupAssoc s.contextByDependency q).getD [] →
      j ∈ (lookupAssoc (List.foldl (fun s' j' => TaskRunner.gatherAux s' n j') s
        l).contextByDependency q).getD [] := by
  intro l
  induction l with
  | nil => intro s q j h; exact h
  | cons a rest ih =>
      intro s q j h
      rw [List.foldl_cons]
      exact ih _ q j (gatherAux_index_mono n s a q j h)

/-- C3 (amended): after a successful `update()` of the single invalid
context, the dependency index maps every path in the context's final
`inputs ∪ dependencies` to that context.  (The claim's second half is false:
stale paths can remain mapped, see the counterexample.) -/
theorem update_gathers_final_declared_paths (st : RunnerState) (c : Nat)
    (st' : RunnerState) (log : List (Nat × List String))
    (hinv : st.invalidContexts = [c])
    (hok : TaskRunner.update st = Except.ok (st', log)) :
    ∀ p ∈ (st'.ctx c).declaredPaths,
      c ∈ (lookupAssoc st'.contextByDependency p).getD [] := by
  set st0 : RunnerState := { st with needsUpdateFlag := false } with hst0
  have hok' : TaskRunner.updateLoop st0 st0.invalidContexts =
      Except.ok (st', log) := hok
  have hinv0 : st0.invalidContexts = [c] := hinv
  rw [hinv0] at hok'
  rcases hsc : runScript (TaskRunner.prune st0 c) c (st0.ctx c).task
    with e | ⟨st2, log1⟩
  · have heq : TaskRunner.updateLoop st0 [c] = Except.error e := by
      simp only [TaskRunner.updateLoop, hsc]
    rw [heq] at hok'
    exact absurd hok' (by simp)
  · have heq : TaskRunner.updateLoop st0 [c] =
        Except.ok (TaskRunner.markValid (TaskRunner.gather st2 c) c,
          (c, (st0.ctx c).inputs) :: log1 ++ []) := by
      simp only [TaskRunner.updateLoop, hsc]
    rw [heq] at hok'
    simp only [Except.ok.injEq, Prod.mk.injEq] at hok'
    obtain ⟨h1, _⟩ := hok'
    subst h1
    obtain ⟨m1, _, _, m4, _, _⟩ :=
      markValid_mv (TaskRunner.gather st2 c) c
    have hctx : (TaskRunner.markValid (TaskRunner.gather st2 c) c).ctx c =
        (TaskRunner.gather st2 c).ctx c := by
      unfold RunnerState.ctx
      rw [m1]
    have hidx : (TaskRunner.markValid (TaskRunner.gather st2 c) c).contextByDependency =
        (TaskRunner.gather st2 c).contextByDependency := m4
    rw [hctx, hidx]
    obtain ⟨g1, _, _, _, _⟩ := gather_ga st2 c
    have hctx2 : (TaskRunner.gather st2 c).ctx c = st2.ctx c := by
      unfold RunnerState.ctx
      rw [g1]
    rw [hctx2]
    rcases hn : st2.contexts.length with _ | n
    · have hnil : st2.contexts = [] := List.length_eq_zero.mp hn
      have hdef : st2.ctx c = default := by
        unfold RunnerState.ctx
        rw [hnil]
        rfl
      rw [hdef]
      intro p hp
      have hempty : (default : TaskContext).declaredPaths = [] := rfl
      rw [hempty] at hp
      exact absurd hp (List.not_mem_nil p)
    · have hg : TaskRunner.gather st2 c =
          List.foldl (fun s j => TaskRunner.gatherAux s n j)
            (List.foldl (fun s p => TaskRunner.indexAdd s p c) st2
              (st2.ctx c).declaredPaths)
            ((List.foldl (fun s p => TaskRunner.indexAdd s p c) st2
              (st2.ctx c).declaredPaths).ctx c).subTasks := by
        unfold TaskRunner.gather
        rw [hn]
        simp only [TaskRunner.gatherAux]
      intro p hp
      rw [hg]
      exact gatherAux_foldl_index_mono n _ _ p c
        (indexAdd_foldl_mem c (st2.ctx c).declaredPaths st2 p hp)

def C3setState : RunnerState := TaskRunner.setInputs W7state 0 ["b"]

/-- C3 (counterexample): entry context 0 is first executed with inputs
`["a"]` (so `"a"` is declared and indexed), its inputs are then replaced by
`["b"]`, and a second `update()` completes successfully; afterwards `"a"` is
no longer among the context's declared paths but the dependency index still
maps `"a"` to it — the declared-path set is not rebuilt from scratch, and the
pre-execution prune removes index entries keyed by the current inputs only. -/
theorem stale_path_still_mapped :
    "a" ∈ (W7state.ctx 0).declaredPaths ∧
    (∃ r, TaskRunner.update C3setState = Except.ok r) ∧
    "a" ∉ ((updateStateOf C3setState).ctx 0).declaredPaths ∧
    0 ∈ (lookupAssoc (updateStateOf C3setState).contextByDependency "a").getD [] :=
  ⟨by decide,
    ⟨(updateStateOf C3setState, updateLogOf C3setState), rfl⟩,
    by decide, by decide⟩

theorem update_gathers_final_declared_paths_witness :
    0 ∈ (lookupAssoc (updateStateOf C3setState).contextByDependency "b").getD [] :=
  update_gathers_final_declared_paths C3setState 0 (updateStateOf C3setState)
    (updateLogOf C3setState) (by decide) rfl "b" (by decide)

/-- Length of the referrer chain of a reference. -/
def DocRef.depth : DocRef → Nat
  | .root _ => 0
  | .child _ r => r.depth + 1

/-- The cycle-detection loop never matches while scanning a strictly shorter
chain: a freshly resolved reference cannot be its own strict ancestor. -/
theorem cycleScanFrom_proceed (cycles : CycleOptions) (tgt : DocRef) :
    ∀ (r : DocRef) (chain : List String), r.depth < tgt.depth →
      cycleScanFrom cycles tgt r chain = CycleScanOutcome.proceed := by
  intro r
  induction r with
  | root u =>
      intro chain hlt
      have hne : DocRef.root u ≠ tgt := by
        intro he
        rw [← he] at hlt
        exact Nat.lt_irrefl _ hlt
      simp only [cycleScanFrom, if_neg hne]
  | child u rr ih =>
      intro chain hlt
      have hne : DocRef.child u rr ≠ tgt := by
        intro he
        rw [← he] at hlt
        exact Nat.lt_irrefl _ hlt
      have hlt' : rr.depth < tgt.depth := by
        have : (DocRef.child u rr).depth = rr.depth + 1 := rfl
        omega
      simp only [cycleScanFrom, if_neg hne]
      exact ih _ hlt'

/-- The cycle check of `walkReference` always proceeds: every chain entry is
a strict ancestor of the candidate, hence a different object. -/
theorem cycleScan_proceed (cycles : CycleOptions) (tgt : DocRef) :
    cycleScan cycles tgt = CycleScanOutcome.proceed := by
  cases tgt with
  | root u => rfl
  | child u r =>
      exact cycleScanFrom_proceed cycles (DocRef.child u r) r []
        (Nat.lt_succ_self _)

/-- The reference graph A→B→A of the claim. -/
def cycleGraph : WalkGraph :=
  ⟨fun u =>
    if u = "file:///A.html" then [("text/html", "file:///B.html")]
    else if u = "file:///B.html" then [("text/html", "file:///A.html")]
    else []⟩

/-- C4: the cycle policies are dead code.  The cycle check compares chain
entries against the freshly created candidate reference by object identity,
which never matches, so on the graph A→B→A the `Prune` walk yields content
for A a second time (and keeps going until fuel runs out), and the `Fail`
walk never raises a cycle error. -/
theorem cycle_policy_never_fires :
    (∀ (cycles : CycleOptions) (tgt : DocRef),
      cycleScan cycles tgt = CycleScanOutcome.proceed) ∧
    2 ≤ ((walkRef cycleGraph ⟨true, CycleOptions.prune⟩ 6 "text/html"
        (DocRef.root "file:///A.html")).1.count
      (WalkContent.typed "text/html" "file:///A.html")) ∧
    (walkRef cycleGraph ⟨true, CycleOptions.fail⟩ 6 "text/html"
        (DocRef.root "file:///A.html")).2.2 = some WalkErr.outOfFuel :=
  ⟨cycleScan_proceed, by decide, by decide⟩

/-- The graph of the remote-gating counterexample: a local html page
referencing a remote html page (walked type), a remote png (unknown walk
type), and a local html page. -/
def remoteGraph : WalkGraph :=
  ⟨fun u =>
    if u = "file:///index.html" then
      [("text/html", "https://cdn.example.com/p.html"),
        ("image/png", "https://cdn.example.com/x.png"),
        ("text/html", "file:///local.html")]
    else []⟩

/-- C9 (counterexample): with `followRemoteReferences` false, walking
`file:///index.html` — which references a remote html page, a remote png and
a local html page — skips the remote html reference silently (no fetch, no
content entry) and continues to the remaining references, exactly as the
claim says; but the remote png, whose type is not walked, still yields an
`unknown` content entry even though it is never fetched: the gating happens
inside `getAndWalkContent`, which the unknown-type branch of
`walkReference` bypasses.  So a non-local reference is not always "neither
fetched nor yielding a content entry". -/
theorem remote_unknown_ref_still_yielded :
    urlProtocol "https://cdn.example.com/x.png" ≠ "file:" ∧
    (walkRef remoteGraph ⟨false, CycleOptions.prune⟩ 6 "text/html"
        (DocRef.root "file:///index.html")).1 =
      [WalkContent.typed "text/html" "file:///index.html",
        WalkContent.unknown "image/png" "https://cdn.example.com/x.png",
        WalkContent.typed "text/html" "file:///local.html"] ∧
    (walkRef remoteGraph ⟨false, CycleOptions.prune⟩ 6 "text/html"
        (DocRef.root "file:///index.html")).2.1 =
      ["file:///index.html", "file:///local.html"] :=
  ⟨by decide, by decide, by decide⟩

/-- C9 (amended): with `followRemoteReferences` false, a non-local reference
is never fetched; if its type is walked (html/svg) it is silently skipped —
no fetch, no content entry, traversal continues — while an unknown-type
non-local reference still yields one unfetched leaf entry. -/
theorem remote_gating_skips_typed_only (g : WalkGraph) (opts : WalkOptions)
    (fuel : Nat) (type : String) (tgt : DocRef)
    (hremote : urlProtocol tgt.url ≠ "file:")
    (hfollow : opts.followRemoteReferences = false) :
    (isWalkedType type = true →
      walkRef g opts (fuel + 1) type tgt = ([], [], none)) ∧
    (isWalkedType type = false →
      walkRef g opts (fuel + 1) type tgt =
        ([WalkContent.unknown type tgt.url], [], none)) := by
  constructor
  · intro ht
    simp only [walkRef, cycleScan_proceed, ht, if_true]
    rw [if_pos]
    constructor
    · rw [hfollow]; rfl
    · exact hremote
  · intro ht
    simp only [walkRef, cycleScan_proceed, ht]
    rw [if_neg]
    simp [ht]

theorem remote_gating_skips_typed_only_witness :
    walkRef remoteGraph ⟨false, CycleOptions.prune⟩ (5 + 1) "text/html"
      (DocRef.child "https://cdn.example.com/p.html"
        (DocRef.root "file:///index.html")) = ([], [], none) :=
  (remote_gating_skips_typed_only remoteGraph ⟨false, CycleOptions.prune⟩ 5
    "text/html"
    (DocRef.child "https://cdn.example.com/p.html"
      (DocRef.root "file:///index.html"))
    (by decide) rfl).1 (by decide)

/-- The configured root context `/site/` of the claim's scenario. -/
def siteRootUrl : Url := ⟨"file", "", ["site", ""], "", ""⟩

/-- The current reference `/site/sub/page.html` inside that root. -/
def sitePageRef : DRef :=
  createDocumentReference ⟨"file", "", ["site", "sub", "page.html"], "", ""⟩
    (some siteRootUrl)

/-- C5: with configured root `/site/` and current reference
`/site/sub/page.html`, resolving `"../../../../icon.png"` clamps the
dot-segment escape at the configured root and yields `/site/icon.png`. -/
theorem root_escape_clamps_to_root :
    (sitePageRef.resolve "../../../../icon.png").url =
      ⟨"file", "", ["site", "icon.png"], "", ""⟩ := by
  rfl

/-- Mapping a pointwise-identity function is the identity. -/
theorem mapIdOn {α : Type} (f : α → α) :
    ∀ (l : List α), (∀ x ∈ l, f x = x) → l.map f = l
  | [], _ => rfl
  | x :: xs, h => by
      rw [List.map_cons, h x (List.mem_cons_self x xs),
        mapIdOn f xs (fun y hy => h y (List.mem_cons_of_mem x hy))]

/-- Eta for strings: rebuilding a string from its characters is the
identity. -/
theorem stringMk_data (s : String) : String.mk s.data = s := rfl

/-- Scanning for an absent character finds nothing. -/
theorem splitFirstAux_not_mem (c : Char) :
    ∀ (l acc : List Char), c ∉ l →
      splitFirstAux c acc l = (acc.reverse ++ l, none)
  | [], acc, _ => by simp [splitFirstAux]
  | x :: xs, acc, h => by
      have hx : x ≠ c := fun he => h (he ▸ List.mem_cons_self x xs)
      have hxs : c ∉ xs := fun hm => h (List.mem_cons_of_mem x hm)
      rw [splitFirstAux, if_neg hx, splitFirstAux_not_mem c xs (x :: acc) hxs]
      simp

/-- Splitting at an absent character returns the whole string. -/
theorem splitFirst_not_mem (s : String) (c : Char) (h : c ∉ s.data) :
    splitFirst s c = (s, none) := by
  unfold splitFirst
  rw [splitFirstAux_not_mem c s.data [] h]
  simp [stringMk_data]

/-- Every character of a joined segment list is a separator or a character
of some segment. -/
theorem mem_joinSegsChars :
    ∀ (segs : List String) (ch : Char), ch ∈ joinSegsChars segs →
      ch = '/' ∨ ∃ s ∈ segs, ch ∈ s.data
  | [], ch, h => absurd h (List.not_mem_nil ch)
  | [s], ch, h => Or.inr ⟨s, List.mem_singleton.mpr rfl, h⟩
  | s :: s' :: rest, ch, h => by
      have hj : joinSegsChars (s :: s' :: rest) =
          s.data ++ '/' :: joinSegsChars (s' :: rest) := rfl
      rw [hj] at h
      rcases List.mem_append.mp h with h1 | h1
      · exact Or.inr ⟨s, List.mem_cons_self s _, h1⟩
      · rcases List.mem_cons.mp h1 with h2 | h2
        · exact Or.inl h2
        · rcases mem_joinSegsChars (s' :: rest) ch h2 with h3 | ⟨t, ht, hc⟩
          · exact Or.inl h3
          · exact Or.inr ⟨t, List.mem_cons_of_mem s ht, hc⟩

/-- Splitting at an absent separator yields one group. -/
theorem splitOnChar_not_mem (c : Char) :
    ∀ (l : List Char), c ∉ l → splitOnChar c l = [l]
  | [], _ => rfl
  | x :: xs, h => by
      have hx : x ≠ c := fun he => h (he ▸ List.mem_cons_self x xs)
      have hxs : c ∉ xs := fun hm => h (List.mem_cons_of_mem x hm)
      rw [splitOnChar, if_neg hx, splitOnChar_not_mem c xs hxs]

/-- Splitting a separator-free prefix followed by a separator peels the
prefix off as one group. -/
theorem splitOnChar_sep_append (c : Char) :
    ∀ (a t : List Char), c ∉ a →
      splitOnChar c (a ++ c :: t) = a :: splitOnChar c t
  | [], t, _ => by
      rw [List.nil_append, splitOnChar, if_pos rfl]
  | x :: xs, t, h => by
      have hx : x ≠ c := fun he => h (he ▸ List.mem_cons_self x xs)
      have hxs : c ∉ xs := fun hm => h (List.mem_cons_of_mem x hm)
      rw [List.cons_append, splitOnChar, if_neg hx,
        splitOnChar_sep_append c xs t hxs]

/-- Splitting a joined non-empty segment list recovers the segments. -/
theorem splitOnChar_join :
    ∀ (segs : List String), segs ≠ [] → (∀ s ∈ segs, '/' ∉ s.data) →
      splitOnChar '/' (joinSegsChars segs) = segs.map String.data
  | [], h, _ => absurd rfl h
  | [s], _, hs => by
      have hj : joinSegsChars [s] = s.data := rfl
      rw [hj, splitOnChar_not_mem '/' s.data (hs s (List.mem_singleton.mpr rfl))]
      rfl
  | s :: s' :: rest, _, hs => by
      have hj : joinSegsChars (s :: s' :: rest) =
          s.data ++ '/' :: joinSegsChars (s' :: rest) := rfl
      rw [hj, splitOnChar_sep_append '/' s.data (joinSegsChars (s' :: rest))
          (hs s (List.mem_cons_self s _)),
        splitOnChar_join (s' :: rest) (by simp)
          (fun t ht => hs t (List.mem_cons_of_mem s ht))]
      rfl

/-- Splitting the string built from a non-empty, slash-free segment list
recovers the segments. -/
theorem splitSlash_join (segs : List String) (hne : segs ≠ [])
    (hs : ∀ s ∈ segs, '/' ∉ s.data) :
    splitSlash (String.mk (joinSegsChars segs)) = segs := by
  unfold splitSlash
  have hdata : (String.mk (joinSegsChars segs)).data = joinSegsChars segs := rfl
  rw [hdata, splitOnChar_join segs hne hs, List.map_map]
  exact mapIdOn _ segs (fun s _ => stringMk_data s)

/-- Proof that `remove_dot_segments` is the identity on dot-free segments. -/
theorem removeDotSegs_no_dots :
    ∀ (segs : List String) (out : List String),
      (∀ s ∈ segs, s ≠ "." ∧ s ≠ "..") → removeDotSegs out segs = out ++ segs
  | [], out, _ => by simp [removeDotSegs]
  | [s], out, h => by
      obtain ⟨h1, h2⟩ := h s (List.mem_singleton.mpr rfl)
      rw [removeDotSegs, if_neg h1, if_neg h2]
  | s :: s' :: rest, out, h => by
      obtain ⟨h1, h2⟩ := h s (List.mem_cons_self s _)
      have hj : removeDotSegs out (s :: s' :: rest) =
          removeDotSegs (out ++ [s]) (s' :: rest) := by
        rw [removeDotSegs, if_neg h1, if_neg h2]
        exact fun hx => List.noConfusion hx
      rw [hj, removeDotSegs_no_dots (s' :: rest) (out ++ [s])
        (fun t ht => h t (List.mem_cons_of_mem s ht))]
      simp

/-- Processing a dot-free prefix of a longer segment list just moves it to
the output. -/
theorem removeDotSegs_prepend :
    ∀ (pre rest out : List String), rest ≠ [] →
      (∀ s ∈ pre, s ≠ "." ∧ s ≠ "..") →
      removeDotSegs out (pre ++ rest) = removeDotSegs (out ++ pre) rest
  | [], rest, out, _, _ => by simp
  | a :: pre', rest, out, hne, h => by
      obtain ⟨h1, h2⟩ := h a (List.mem_cons_self a _)
      rcases hsplit : pre' ++ rest with _ | ⟨x, xs⟩
      · rcases List.append_eq_nil.mp hsplit with ⟨_, h4⟩
        exact absurd h4 hne
      · have hj : removeDotSegs out (a :: (pre' ++ rest)) =
            removeDotSegs (out ++ [a]) (pre' ++ rest) := by
          rw [hsplit, removeDotSegs, if_neg h1, if_neg h2]
          exact fun hx => List.noConfusion hx
        rw [List.cons_append, hj,
          removeDotSegs_prepend pre' rest (out ++ [a]) hne
            (fun t ht => h t (List.mem_cons_of_mem a ht))]
        simp

/-- Backslash-to-slash normalization is idempotent. -/
theorem normalizeSlashes_idem (s : String) :
    normalizeSlashes (normalizeSlashes s) = normalizeSlashes s := by
  unfold normalizeSlashes
  have hdata : (String.mk (s.data.map fun c => if c = '\\' then '/' else c)).data =
      s.data.map fun c => if c = '\\' then '/' else c := rfl
  rw [hdata]
  congr 1
  apply mapIdOn
  intro x hx
  rcases List.mem_map.mp hx with ⟨y, _, hy⟩
  subst hy
  by_cases hb : y = '\\' <;> simp [hb]

/-- Proof that `new URL` behaves the same on a string and on its slash-normalized
form (its first step is exactly that normalization). -/
theorem urlResolve_normalizeSlashes (s : String) (base : Url) :
    urlResolve (normalizeSlashes s) base = urlResolve s base := by
  unfold urlResolve
  rw [normalizeSlashes_idem]

/-- Normalizing a string whose first character is a path separator and whose
remaining characters are backslash-free. -/
theorem normalizeSlashes_sep (sep : Char) (l : List Char)
    (hsep : sep = '/' ∨ sep = '\\') (hl : ∀ ch ∈ l, ch ≠ '\\') :
    normalizeSlashes (String.mk (sep :: l)) = String.mk ('/' :: l) := by
  unfold normalizeSlashes
  have hdata : (String.mk (sep :: l)).data = sep :: l := rfl
  rw [hdata, List.map_cons, mapIdOn _ l (fun ch hch => by
    rw [if_neg (hl ch hch)])]
  rcases hsep with h | h <;> subst h
  · rw [if_neg (by decide)]
  · rw [if_pos rfl]

/-- Proof that `new URL(ref, base)` on a plain path reference (no query, fragment or
backslashes): an absolute path replaces the base path, a relative one merges
with the base directory, and the query and fragment are cleared. -/
theorem urlResolve_plain (base : Url) (c0 : Char) (l : List Char)
    (hclean : ∀ ch ∈ c0 :: l, ch ≠ '#' ∧ ch ≠ '?' ∧ ch ≠ '\\')
    (hpr : isProtocolRelative (c0 :: l) = false) :
    urlResolve (String.mk (c0 :: l)) base =
      { base with
        path := removeDotSegs []
          (if c0 = '/' then (splitOnChar '/' l).map String.mk
            else base.path.dropLast ++ (splitOnChar '/' (c0 :: l)).map String.mk),
        search := "", fragment := "" } := by
  have hnb : ∀ ch ∈ c0 :: l, ch ≠ '\\' := fun ch hch => (hclean ch hch).2.2
  have hnorm : normalizeSlashes (String.mk (c0 :: l)) = String.mk (c0 :: l) := by
    unfold normalizeSlashes
    have hdata : (String.mk (c0 :: l)).data = c0 :: l := rfl
    rw [hdata, mapIdOn _ (c0 :: l) (fun ch hch => by rw [if_neg (hnb ch hch)])]
  have hhash : '#' ∉ (String.mk (c0 :: l)).data := by
    intro hm
    exact ((hclean _ hm).1) rfl
  have hquery : '?' ∉ (String.mk (c0 :: l)).data := by
    intro hm
    exact ((hclean _ hm).2.1) rfl
  have hne : String.mk (c0 :: l) ≠ "" := by
    intro he
    have : (String.mk (c0 :: l)).data = ("" : String).data := by rw [he]
    simp at this
  unfold urlResolve
  dsimp only
  rw [hnorm, splitFirst_not_mem _ '#' hhash]
  dsimp only
  rw [splitFirst_not_mem _ '?' hquery]
  dsimp only
  rw [if_neg hne]
  rw [if_neg (show ¬ isProtocolRelative (String.mk (c0 :: l)).data = true by
    rw [show (String.mk (c0 :: l)).data = c0 :: l from rfl, hpr]
    exact Bool.false_ne_true)]
  by_cases hc : c0 = '/'
  · subst hc
    rw [if_pos (show (('/' : Char) :: l).head? = some '/' from rfl)]
    rfl
  · rw [if_neg (show ¬(c0 :: l).head? = some '/' from
      fun he => hc (Option.some.inj he)), if_neg hc]
    rfl

/-- Appending the empty string is the identity. -/
theorem stringAppend_empty (s : String) : s ++ "" = s := by
  cases s with
  | mk l =>
      show String.mk (l ++ ("" : String).data) = String.mk l
      rw [show ("" : String).data = [] from rfl, List.append_nil]

/-- Proof that a plain path character is neither separator, query, fragment,
nor backslash delimiter. -/
theorem plainPathChar_not_special (c : Char) (h : isPlainPathChar c = true) :
    c ≠ '/' ∧ c ≠ '\\' ∧ c ≠ '?' ∧ c ≠ '#' := by
  refine ⟨?_, ?_, ?_, ?_⟩ <;> rintro rfl <;> revert h <;> decide

/-- C6 (counterexample): the value `//host/x` begins with a path separator
and the reference `/site/sub/page.html` lies inside the configured root
`/site/`, yet the resolved target is `/site/x`, not the root-relative
`/site//host/x`: WHATWG parsing reads the leading `//` as a protocol-relative
authority reference, so `host` becomes the authority of the virtual URL and
only the `/x` path survives into the placeholder rewrite. -/
theorem protocol_relative_value_not_root_relative :
    (sitePageRef.resolve "//host/x").url =
        ⟨"file", "", ["site", "x"], "", ""⟩ ∧
      (sitePageRef.resolve "//host/x").url ≠
        ⟨"file", "", ["site", "", "host", "x"], "", ""⟩ :=
  ⟨rfl, by decide⟩

/-- C6 (amended): for a reference whose target lies inside the configured
root context's subtree (same authority, path under the root directory),
resolving a value that begins with a single path separator (`/` or `\`,
normalized to `/`) followed by plain path segments (nonempty, neither `.`
nor `..`, built from plain path characters — so in particular not a
protocol-relative `//...` value, which WHATWG parsing reads as an authority
reference) yields a reference whose target is that path relative to the
root context. The value is `sep` followed by the segments `vsegs` joined
with `/`. -/
theorem leading_separator_resolves_root_relative (r : DRef) (root : Url)
    (sep : Char) (vsegs : List String)
    (hsep : sep = '/' ∨ sep = '\\')
    (hroot : r.rootCtx = some root)
    (hauth : hasSameAuthority root r.url = true)
    (hinside : ∃ t, r.url.path = root.path.dropLast ++ t)
    (hrootdir : ∃ rp, root.path = rp ++ [""] ∧ ∀ s ∈ rp, s ≠ "." ∧ s ≠ "..")
    (hvne : vsegs ≠ [])
    (hvchars : ∀ s ∈ vsegs, s ≠ "" ∧ s ≠ "." ∧ s ≠ ".." ∧
      ∀ ch ∈ s.data, isPlainPathChar ch = true) :
    (r.resolve (String.mk (sep :: joinSegsChars vsegs))).url =
      { scheme := root.scheme, authority := root.authority,
        path := root.path.dropLast ++ vsegs, search := "", fragment := "" } := by
  rcases vsegs with _ | ⟨v0, vrest⟩
  · exact absurd rfl hvne
  have hvold : ∀ s ∈ v0 :: vrest, s ≠ "." ∧ s ≠ ".." ∧
      ∀ ch ∈ s.data, ch ≠ '/' ∧ ch ≠ '\\' ∧ ch ≠ '?' ∧ ch ≠ '#' := by
    intro s hs
    obtain ⟨_, h1, h2, h3⟩ := hvchars s hs
    exact ⟨h1, h2, fun ch hch => plainPathChar_not_special ch (h3 ch hch)⟩
  have hjchars : ∀ ch ∈ joinSegsChars (v0 :: vrest),
      ch ≠ '#' ∧ ch ≠ '?' ∧ ch ≠ '\\' := by
    intro ch hch
    rcases mem_joinSegsChars (v0 :: vrest) ch hch with h1 | ⟨s, hs, hcs⟩
    · subst h1
      exact ⟨by decide, by decide, by decide⟩
    · obtain ⟨_, _, h3⟩ := hvold s hs
      exact ⟨(h3 ch hcs).2.2.2, (h3 ch hcs).2.2.1, (h3 ch hcs).2.1⟩
  have hnoslash : ∀ s ∈ v0 :: vrest, '/' ∉ s.data := by
    intro s hs hm
    exact ((hvold s hs).2.2 '/' hm).1 rfl
  have hsegsId : (splitOnChar '/' (joinSegsChars (v0 :: vrest))).map String.mk =
      v0 :: vrest := by
    rw [splitOnChar_join (v0 :: vrest) hvne hnoslash, List.map_map]
    exact mapIdOn _ (v0 :: vrest) (fun s _ => stringMk_data s)
  have hscheme : hasUrlScheme (String.mk (sep :: joinSegsChars (v0 :: vrest))) =
      false := by
    rcases hsep with h | h <;> subst h <;> rfl
  have hval : normalizeSlashes (String.mk (sep :: joinSegsChars (v0 :: vrest))) =
      String.mk ('/' :: joinSegsChars (v0 :: vrest)) :=
    normalizeSlashes_sep sep _ hsep (fun ch hch => (hjchars ch hch).2.2)
  have hcleanAbs : ∀ ch ∈ '/' :: joinSegsChars (v0 :: vrest),
      ch ≠ '#' ∧ ch ≠ '?' ∧ ch ≠ '\\' := by
    intro ch hch
    rcases List.mem_cons.mp hch with h1 | h1
    · subst h1
      exact ⟨by decide, by decide, by decide⟩
    · exact hjchars ch h1
  have hv0ne : v0 ≠ "" := (hvchars v0 (List.mem_cons_self v0 vrest)).1
  obtain ⟨c0, cs0, hv0data⟩ : ∃ c cs, v0.data = c :: cs := by
    rcases hd : v0.data with _ | ⟨c, cs⟩
    · exact absurd (String.ext hd) hv0ne
    · exact ⟨c, cs, rfl⟩
  have hc0 : c0 ≠ '/' := by
    intro he
    have hp := (hvchars v0 (List.mem_cons_self v0 vrest)).2.2.2 c0
      (by rw [hv0data]; exact List.mem_cons_self _ _)
    rw [he] at hp
    exact absurd hp (by decide)
  obtain ⟨tl, htl⟩ : ∃ tl, joinSegsChars (v0 :: vrest) = c0 :: tl := by
    rcases vrest with _ | ⟨w, ws⟩
    · exact ⟨cs0, by rw [show joinSegsChars [v0] = v0.data from rfl, hv0data]⟩
    · refine ⟨cs0 ++ '/' :: joinSegsChars (w :: ws), ?_⟩
      rw [show joinSegsChars (v0 :: w :: ws) =
        v0.data ++ '/' :: joinSegsChars (w :: ws) from rfl, hv0data]
      rfl
  have hnpr : isProtocolRelative ('/' :: joinSegsChars (v0 :: vrest)) = false := by
    rw [htl]
    show (('/' : Char) == '/' && c0 == '/') = false
    simp [hc0]
  have hnpr2 : isProtocolRelative ('.' :: '/' :: joinSegsChars (v0 :: vrest)) =
      false := rfl
  have hrv : ∀ vbase : Url,
      urlResolve (String.mk (sep :: joinSegsChars (v0 :: vrest))) vbase =
        { vbase with path := v0 :: vrest, search := "", fragment := "" } := by
    intro vbase
    rw [← urlResolve_normalizeSlashes (String.mk (sep :: joinSegsChars (v0 :: vrest)))
      vbase, hval, urlResolve_plain vbase '/' (joinSegsChars (v0 :: vrest))
        hcleanAbs hnpr,
      if_pos rfl, hsegsId, removeDotSegs_no_dots (v0 :: vrest) []
        (fun s hs => ⟨(hvold s hs).1, (hvold s hs).2.1⟩),
      List.nil_append]
  have hstr : ("." : String) ++ String.mk ('/' :: joinSegsChars (v0 :: vrest)) ++
      ("" : String) ++ ("" : String) =
        String.mk ('.' :: '/' :: joinSegsChars (v0 :: vrest)) := by
    rw [stringAppend_empty, stringAppend_empty]
    rfl
  obtain ⟨rp, hrp, hrpdots⟩ := hrootdir
  have hdrop : root.path.dropLast = rp := by
    rw [hrp]
    exact List.dropLast_concat
  have hsplit2 : splitOnChar '/' ('.' :: '/' :: joinSegsChars (v0 :: vrest)) =
      ['.'] :: splitOnChar '/' (joinSegsChars (v0 :: vrest)) := by
    have hinner : splitOnChar '/' ('/' :: joinSegsChars (v0 :: vrest)) =
        [] :: splitOnChar '/' (joinSegsChars (v0 :: vrest)) := by
      rw [splitOnChar, if_pos rfl]
    rw [splitOnChar, if_neg (show ('.' : Char) ≠ '/' by decide), hinner]
  have hcleanRel : ∀ ch ∈ '.' :: '/' :: joinSegsChars (v0 :: vrest),
      ch ≠ '#' ∧ ch ≠ '?' ∧ ch ≠ '\\' := by
    intro ch hch
    rcases List.mem_cons.mp hch with h1 | h1
    · subst h1
      exact ⟨by decide, by decide, by decide⟩
    · exact hcleanAbs ch h1
  have hfinal : urlResolve (String.mk ('.' :: '/' :: joinSegsChars (v0 :: vrest)))
      root =
      { root with
        path := root.path.dropLast ++ (v0 :: vrest),
        search := "",
        fragment := "" } := by
    rw [urlResolve_plain root '.' ('/' :: joinSegsChars (v0 :: vrest)) hcleanRel
        hnpr2,
      if_neg (show ¬('.' : Char) = '/' by decide), hsplit2]
    have hmap : (['.'] :: splitOnChar '/' (joinSegsChars (v0 :: vrest))).map
        String.mk = "." :: v0 :: vrest := by
      rw [List.map_cons]
      rw [hsegsId]
    rw [hmap, hdrop]
    have hpre : removeDotSegs [] (rp ++ "." :: v0 :: vrest) =
        removeDotSegs rp ("." :: v0 :: vrest) := by
      rw [removeDotSegs_prepend rp ("." :: v0 :: vrest) []
        (fun hx => List.noConfusion hx) hrpdots, List.nil_append]
    have hdot : removeDotSegs rp ("." :: v0 :: vrest) =
        removeDotSegs rp (v0 :: vrest) := by
      rw [removeDotSegs, if_pos rfl]
      exact fun hx => List.noConfusion hx
    rw [hpre, hdot, removeDotSegs_no_dots (v0 :: vrest) rp
      (fun s hs => ⟨(hvold s hs).1, (hvold s hs).2.1⟩)]
  show (DRef.resolve r (String.mk (sep :: joinSegsChars (v0 :: vrest)))).url = _
  unfold DRef.resolve
  rw [hscheme]
  simp only [Bool.false_eq_true, if_false, hroot]
  rw [if_pos hauth]
  dsimp only [DRef.url]
  rw [hrv]
  dsimp only [Url.pathname]
  rw [hstr, hfinal]

theorem leading_separator_resolves_root_relative_witness :
    (sitePageRef.resolve "/icon.png").url =
      ⟨"file", "", ["site", "icon.png"], "", ""⟩ :=
  leading_separator_resolves_root_relative sitePageRef siteRootUrl '/'
    ["icon.png"] (Or.inl rfl) rfl (by decide)
    ⟨["sub", "page.html"], by decide⟩
    ⟨["site"], by decide, by decide⟩ (by decide) (by decide)
